import Mathlib

/-!
fibdrv: 128-bit arithmetic and fast-doubling Fibonacci.

A shallow embedding of `fibdrv.c`.  `unsigned long long` values are natural
numbers kept below `2 ^ 64` by an explicit reduction after every operation
that can wrap; `struct BigN` is a pair of such words.  A C execution that
leaves defined behaviour (division by zero, an index outside an array, a read
of an element that was never written, signed overflow) is `none`.
-/

namespace Fibdrv

/-! ## Constants -/

/-- The `MAX_LENGTH` macro. -/
def MAX_LENGTH : Int := 100

/-- The `LONG_LONG_UPPER` macro. -/
def LONG_LONG_UPPER : Nat := 0xFFFFFFFF00000000

/-- The `LONG_LONG_LOWER` macro. -/
def LONG_LONG_LOWER : Nat := 0x00000000FFFFFFFF

/-- The `LL_MAX` macro. -/
def LL_MAX : Nat := 0xFFFFFFFFFFFFFFFF

/-- The `STRING_LEN` macro. -/
def STRING_LEN : Nat := 40

/-- Largest value of an `int`. -/
def INT_MAX : Nat := 2147483647

/-! ## Machine words -/

/-- Reduction of a natural number to an `unsigned long long`. -/
def u64 (n : Nat) : Nat := n % 2 ^ 64

/-- Unsigned 64-bit subtraction `a - b` of two words. -/
def sub64 (a b : Nat) : Nat := (2 ^ 64 + a - b) % 2 ^ 64

/-- Bitwise complement `~a` of a 64-bit word. -/
def not64 (a : Nat) : Nat := LL_MAX - a

/-- Number of significant bits of `x`, looking at no more than `fuel` bits. -/
def bit_length : Nat → Nat → Nat
  | 0, _ => 0
  | fuel + 1, x => if x = 0 then 0 else bit_length fuel (x / 2) + 1

/-- Count of leading zero bits of a 64-bit word, `__builtin_clzll`.  The
builtin leaves the result for `0` undefined; the embedding takes 64 there. -/
def clzll (x : Nat) : Nat := 64 - bit_length 64 x

/-- The C type `struct BigN`: two 64-bit words. -/
structure BigN where
  /-- Least significant word. -/
  lower : Nat
  /-- Most significant word. -/
  upper : Nat
  deriving DecidableEq, Repr

/-- The unsigned integer a `BigN` stands for, `upper * 2 ^ 64 + lower`. -/
def BigN.val (a : BigN) : Nat := a.upper * 2 ^ 64 + a.lower

/-- Both words of a `BigN` are 64-bit words. -/
def BigN.wf (a : BigN) : Prop := a.lower < 2 ^ 64 ∧ a.upper < 2 ^ 64

instance (a : BigN) : Decidable a.wf := by
  unfold BigN.wf
  infer_instance

/-- The `BigN` whose value is `n` reduced modulo `2 ^ 128`. -/
def BigN.ofNat (n : Nat) : BigN := ⟨n % 2 ^ 64, n / 2 ^ 64 % 2 ^ 64⟩

/-! ## BigN arithmetic -/

/-- The function `bign_divide`: the new `*num` and `*remainder`; `none` when
the divisor is zero. -/
def bign_divide (num : BigN) (divisor : Nat) : Option (BigN × Nat) :=
  if divisor = 0 then none
  else if num.upper = 0 then
    some (⟨num.lower / divisor, num.upper⟩, num.lower % divisor)
  else
    let borrow := num.upper % divisor
    let upper := num.upper / divisor
    let remainder := u64 (u64 (u64 ((LL_MAX % divisor) * borrow) + borrow) + num.lower % divisor)
    let lower := u64 (u64 (num.lower / divisor + u64 ((LL_MAX / divisor) * borrow))
                   + remainder / divisor)
    some (⟨lower, upper⟩, remainder % divisor)

/-- The function `bign_minus`: the returned `int` and the stored `*result`
(which is not one of the operands). -/
def bign_minus (num1 num2 : BigN) : Int × BigN :=
  let lower := sub64 num1.lower num2.lower
  let borrow := if lower > num1.lower then 1 else 0
  let upper := sub64 (sub64 num1.upper num2.upper) borrow
  if u64 (upper + borrow) > num1.upper then (1, ⟨lower, upper⟩) else (0, ⟨lower, upper⟩)

/-- The function `bign_add`: the returned `int` and the stored `*result`
(which is not one of the operands). -/
def bign_add (num1 num2 : BigN) : Int × BigN :=
  let lower := u64 (num1.lower + num2.lower)
  let tmp := if lower < num1.lower then 1 else 0
  let upper := u64 (u64 (num1.upper + num2.upper) + tmp)
  if not64 num1.upper ≥ u64 (num2.upper + tmp) ∧ tmp ≠ 0 ∧ not64 num2.upper ≠ 0 then
    (0, ⟨lower, upper⟩)
  else (1, ⟨lower, upper⟩)

/-- The function `bign_left_shift`: the returned `int` and the new `*num`.
For `size = 0` the C expression shifts `~mask & num->lower`, which is zero
then, right by 64; the shift of the embedding gives 0 for it. -/
def bign_left_shift (num : BigN) (size : Nat) : Int × BigN :=
  let mask := LL_MAX >>> size
  let upper := u64 (u64 (num.upper <<< size) + ((not64 mask &&& num.lower) >>> (64 - size)))
  let lower := u64 (num.lower <<< size)
  if upper ≠ 0 ∧ size ≥ clzll upper then (1, ⟨lower, upper⟩)
  else if size ≥ clzll lower + 64 then (1, ⟨lower, upper⟩)
  else (0, ⟨lower, upper⟩)

/-- The function `long_long_multiple`: the returned `int` and the stored
`*result`. -/
def long_long_multiple (num1 num2 : Nat) : Int × BigN :=
  let u1 := (num1 &&& LONG_LONG_UPPER) >>> 32
  let u2 := (num2 &&& LONG_LONG_UPPER) >>> 32
  let l1 := num1 &&& LONG_LONG_LOWER
  let l2 := num2 &&& LONG_LONG_LOWER
  let z2 := u64 (u1 * u2)
  let z0 := u64 (l1 * l2)
  let tmp := u64 (u1 * l2)
  let z1 := u64 (u2 * l1)
  let z1 := u64 (z1 + tmp)
  let _carry := if z1 < tmp then 1 else 0
  let carry := 0
  let bign1 : BigN := ⟨z0, z2⟩
  let bign2 : BigN :=
    ⟨u64 ((z1 &&& LONG_LONG_LOWER) <<< 32),
     u64 (((z1 &&& LONG_LONG_UPPER) >>> 32) + u64 (carry <<< 32))⟩
  bign_add bign1 bign2

/-- The tail of `bign_multiple` once the cross term `tmp` is known. -/
def bign_multiple_cross (result tmp : BigN) : Int × Option BigN :=
  if tmp.upper ≠ 0 then (1, some result)
  else
    let result : BigN := ⟨result.lower, u64 (result.upper + tmp.lower)⟩
    if result.upper < tmp.lower then (1, some result) else (0, some result)

/-- The function `bign_multiple`: the returned `int` and what was stored in
`*result` (`none` when the function returned before storing anything).
`aliased` says that `result` and `num2` point to the same object, so that
`num2` is read back from the stored base product. -/
def bign_multiple (num1 num2 : BigN) ( aliased : Bool) : Int × Option BigN :=
  if num1.upper ≠ 0 ∧ num2.upper ≠ 0 then (1, none)
  else
    let result := (long_long_multiple num1.lower num2.lower).2
    let num2 := if aliased then result else num2
    if num1.upper ≠ 0 then
      bign_multiple_cross result (long_long_multiple num1.upper num2.lower).2
    else if num2.upper ≠ 0 then
      bign_multiple_cross result (long_long_multiple num2.upper num1.lower).2
    else (0, some result)

/-! ## Decimal formatting -/

/-- A store `string[i] = c` into a character buffer; `none` outside it. -/
def store_char (string : List Nat) (i c : Nat) : Option (List Nat) :=
  if i < string.length then some (string.set i c) else none

/-- The call `memset(string, 0, sizeof(char) * STRING_LEN)`. -/
def memset_string (string : List Nat) : Option (List Nat) :=
  if STRING_LEN ≤ string.length then
    some (List.replicate STRING_LEN 0 ++ string.drop STRING_LEN)
  else none

/-- The `while` loop of `bign2string`, from the state `(num, string, ptr)`;
the result is the state at loop exit.  `fuel` bounds the iterations. -/
def digit_loop : Nat → BigN → List Nat → Nat → Option (BigN × List Nat × Nat)
  | 0, num, string, ptr =>
    if num.lower ≠ 0 ∨ num.upper ≠ 0 then none else some (num, string, ptr)
  | fuel + 1, num, string, ptr =>
    if num.lower ≠ 0 ∨ num.upper ≠ 0 then
      match bign_divide num 10 with
      | none => none
      | some (num, remainder) =>
        match store_char string ptr ((remainder % 256 + 48) % 256) with
        | none => none
        | some string => digit_loop fuel num string (ptr + 1)
    else some (num, string, ptr)

/-- The `for` loop of `bign2string` that reverses `string[0..ptr]`, from
index `i`.  `fuel` bounds the iterations. -/
def reverse_loop : Nat → Nat → Nat → List Nat → Option (List Nat)
  | 0, ptr, i, string => if i ≤ ptr / 2 then none else some string
  | fuel + 1, ptr, i, string =>
    if i ≤ ptr / 2 then
      match string.get? i, string.get? (ptr - i) with
      | some tmp, some c =>
        match store_char string i c with
        | none => none
        | some string =>
          match store_char string (ptr - i) tmp with
          | none => none
          | some string => reverse_loop fuel ptr (i + 1) string
      | _, _ => none
    else some string

/-- The function `bign2string`: the buffer `string` after the call.  After the
digit loop `--ptr` is the index of the last digit; with `ptr = 0` it would be
`-1` and the reversal would index `string[-1]`, which is `none` here. -/
def bign2string (num : BigN) (string : List Nat) : Option (List Nat) :=
  match memset_string string with
  | none => none
  | some string =>
    if num.lower = 0 ∧ num.upper = 0 then store_char string 0 48
    else
      match digit_loop 128 num string 0 with
      | none => none
      | some (_, string, ptr) =>
        if ptr = 0 then none
        else reverse_loop STRING_LEN (ptr - 1) 0 string

/-- The C string held in a buffer: the characters before the first zero. -/
def c_string (string : List Nat) : List Nat := string.takeWhile (fun c => c ≠ 0)

/-- The text of the C string held in a buffer. -/
def c_text (string : List Nat) : String := String.mk ((c_string string).map Char.ofNat)

/-! ## Fast doubling -/

/-- The variable-length array `struct BigN f[k + 2]` of `fib_sequence`: its
declared number of elements and the stores made to it so far, the latest
first.  An element no store was made to is uninitialised. -/
structure BigNArray where
  /-- Number of elements the array was declared with. -/
  size : Nat
  /-- The stores `(index, value)` made so far, the latest first. -/
  writes : List (Nat × BigN)
  deriving DecidableEq

/-- A read of `f[i]`; `none` outside the array or at an element that was
never written. -/
def load (f : BigNArray) (i : Nat) : Option BigN :=
  if i < f.size then f.writes.lookup i else none

/-- A store to `f[i]`; `none` outside the array. -/
def store (f : BigNArray) (i : Nat) (v : BigN) : Option BigNArray :=
  if i < f.size then some ⟨f.size, (i, v) :: f.writes⟩ else none

/-- A store to `f[i]` of what a callee left in `*result`: nothing when the
callee returned early. -/
def store_result (f : BigNArray) (i : Nat) (r : Option BigN) : Option BigNArray :=
  match r with
  | none => if i < f.size then some f else none
  | some v => store f i v

/-- An `int` expression with value `n`; `none` on signed overflow. -/
def int_value (n : Nat) : Option Nat := if n ≤ INT_MAX then some n else none

/-- The first half of an iteration of the loop of `fib_sequence`: the stores
to `f[2 * j]` and `f[2 * j + 1]`, from the array `f` and the index `j`. -/
def fib_double (f : BigNArray) (j : Nat) : Option BigNArray :=
  (load f (j + 1)).bind fun tmp1 =>
  let tmp1 := (bign_left_shift tmp1 1).2
  (load f j).bind fun fj =>
  let tmp2 := (bign_minus tmp1 fj).2
  (int_value (2 * j)).bind fun j2 =>
  (store_result f j2 (bign_multiple tmp2 fj (decide (j2 = j))).2).bind fun f =>
  (load f j).bind fun fj =>
  let tmp1 := ((bign_multiple fj fj false).2).getD tmp1
  (load f (j + 1)).bind fun fj1 =>
  let tmp2 := ((bign_multiple fj1 fj1 false).2).getD tmp2
  (int_value (2 * j + 1)).bind fun j21 =>
  store f j21 (bign_add tmp1 tmp2).2

/-- The second half of an iteration of the loop of `fib_sequence`, after
`j = j * 2`: the store to `f[j + 2]` and `++j`, done when the bit of `k`
selected by the loop counter `i` is set. -/
def fib_advance (k i : Nat) (f : BigNArray) (j : Nat) : Option (BigNArray × Nat) :=
  if ((0x8000000000000000 >>> i) &&& k) ≠ 0 then
    (load f j).bind fun a =>
    (load f (j + 1)).bind fun b =>
    (int_value (j + 2)).bind fun j2 =>
    (store f j2 (bign_add a b).2).bind fun f =>
    (int_value (j + 1)).bind fun j => some (f, j)
  else some (f, j)

/-- One iteration of the loop of `fib_sequence`, for the loop counter `i`,
from the array `f` and the index `j`. -/
def fib_step (k i : Nat) (f : BigNArray) (j : Nat) : Option (BigNArray × Nat) :=
  (fib_double f j).bind fun f =>
  (int_value (j * 2)).bind fun j => fib_advance k i f j

/-- The `for` loop of `fib_sequence` from the counter `i`.  `fuel` bounds
the iterations. -/
def fib_loop : Nat → Nat → Nat → BigNArray → Nat → Option (BigNArray × Nat)
  | 0, _, i, f, j => if i < 64 then none else some (f, j)
  | fuel + 1, k, i, f, j =>
    if i < 64 then
      match fib_step k i f j with
      | none => none
      | some (f, j) => fib_loop fuel k (i + 1) f j
    else some (f, j)

/-- The state `(f, j)` of `fib_sequence` at the exit of its loop, for
`k ≠ 0`: the array is declared with `k + 2` elements, of which `f[0]` and
`f[1]` are written before the loop. -/
def fib_array (k : Int) : Option (BigNArray × Nat) :=
  if k + 2 ≤ 0 ∨ 2 ^ 63 ≤ k + 2 then none
  else
    let f : BigNArray := ⟨(k + 2).toNat, []⟩
    match store f 0 ⟨0, 0⟩ with
    | none => none
    | some f =>
      match store f 1 ⟨1, 0⟩ with
      | none => none
      | some f =>
        let uk := (k % 2 ^ 64).toNat
        fib_loop 64 uk (clzll uk) f 0

/-- The `BigN` that `fib_sequence` hands to `bign2string`, `f[j]` at the exit
of the loop, for `k ≠ 0`. -/
def fib_number (k : Int) : Option BigN :=
  match fib_array k with
  | none => none
  | some (f, j) => load f j

/-- The function `fib_sequence`: the buffer `string` after the call. -/
def fib_sequence (k : Int) (string : List Nat) : Option (List Nat) :=
  if k = 0 then
    match store_char string 0 48 with
    | none => none
    | some string => store_char string 1 0
  else
    match store_char string 0 0 with
    | none => none
    | some string =>
      match fib_number k with
      | none => none
      | some num => bign2string num string

/-- The number whose digits `fib_sequence` writes for the index `k`: zero on
the `k == 0` path, otherwise the value of the `BigN` handed to `bign2string`. -/
def fib_value (k : Int) : Option Nat :=
  if k = 0 then some 0 else (fib_number k).map BigN.val

/-- The loop of `fib_sequence` from the counter `i`, stopped after `t`
iterations (or at the loop exit when that comes first): the state `(f, j)`
reached. -/
def fib_iterate : Nat → Nat → Nat → BigNArray → Nat → Option (BigNArray × Nat)
  | 0, _, _, f, j => some (f, j)
  | t + 1, k, i, f, j =>
    if i < 64 then
      match fib_step k i f j with
      | none => none
      | some (f, j) => fib_iterate t k (i + 1) f j
    else some (f, j)

/-- The state `(f, j)` of `fib_sequence` after the first `t` iterations of its
loop, for `k ≠ 0`. -/
def fib_after (t : Nat) (k : Int) : Option (BigNArray × Nat) :=
  if k + 2 ≤ 0 ∨ 2 ^ 63 ≤ k + 2 then none
  else
    let f : BigNArray := ⟨(k + 2).toNat, []⟩
    match store f 0 ⟨0, 0⟩ with
    | none => none
    | some f =>
      match store f 1 ⟨1, 0⟩ with
      | none => none
      | some f =>
        let uk := (k % 2 ^ 64).toNat
        fib_iterate t uk (clzll uk) f 0

/-- The function `fib_device_lseek`: the new position, from the position
`f_pos` of the file, `offset` and `orig`; `none` when a `loff_t` sum or
difference leaves the signed 64-bit range. -/
def fib_device_lseek (f_pos offset orig : Int) : Option Int :=
  let new_pos : Option Int :=
    if orig = 0 then some offset
    else if orig = 1 then
      if -(2 ^ 63) ≤ f_pos + offset ∧ f_pos + offset < 2 ^ 63 then some (f_pos + offset)
      else none
    else if orig = 2 then
      if -(2 ^ 63) ≤ MAX_LENGTH - offset ∧ MAX_LENGTH - offset < 2 ^ 63 then
        some (MAX_LENGTH - offset)
      else none
    else some 0
  new_pos.map fun new_pos =>
    let new_pos := if new_pos > MAX_LENGTH then MAX_LENGTH else new_pos
    if new_pos < 0 then 0 else new_pos

/-! ## A rolling pair -/

/-- A product by `bign_multiple` into a fresh variable: `none` when the
function stores nothing. -/
def pair_multiply (a b : BigN) : Option BigN := (bign_multiple a b false).2

/-- One step of fast doubling on a pair `(a, b)` kept in two variables
instead of the array: `a2 = (2b - a) * a` and `b2 = a * a + b * b` with the
BigN primitives, then `(b2, a2 + b2)` when the bit of `k` selected by `i` is
set and `(a2, b2)` otherwise.  A variable no value was stored to is `none`. -/
def rolling_pair_step (k i : Nat) (p : Option BigN × Option BigN) :
    Option BigN × Option BigN :=
  let a2 : Option BigN :=
    p.1.bind fun a => p.2.bind fun b =>
      pair_multiply (bign_minus (bign_left_shift b 1).2 a).2 a
  let b2 : Option BigN :=
    p.1.bind fun a => p.2.bind fun b =>
      (pair_multiply a a).bind fun x => (pair_multiply b b).bind fun y =>
        some (bign_add x y).2
  if ((0x8000000000000000 >>> i) &&& k) ≠ 0 then
    (b2, a2.bind fun x => b2.bind fun y => some (bign_add x y).2)
  else (a2, b2)

/-- The rolling-pair loop over the bits of `k` from the counter `i`.  `fuel`
bounds the iterations. -/
def rolling_pair_loop : Nat → Nat → Nat → Option BigN × Option BigN → Option BigN × Option BigN
  | 0, _, _, p => p
  | fuel + 1, k, i, p =>
    if i < 64 then rolling_pair_loop fuel k (i + 1) (rolling_pair_step k i p) else p

/-- The value the rolling-pair loop ends with for the index `k`: the first
component of the pair, started from `(F(0), F(1)) = (0, 1)`. -/
def rolling_pair (k : Nat) : Option BigN :=
  (rolling_pair_loop 64 k (clzll k) (some ⟨0, 0⟩, some ⟨1, 0⟩)).1

/-! ## Values of BigN -/

theorem BigN.val_ofNat (n : Nat) (h : n < 2 ^ 128) : (BigN.ofNat n).val = n := by
  simp only [BigN.val, BigN.ofNat]
  norm_num at h ⊢
  omega

theorem BigN.ofNat_val (a : BigN) (h : a.wf) : BigN.ofNat a.val = a := by
  obtain ⟨lo, hi⟩ := a
  simp only [BigN.wf] at h
  simp only [BigN.val, BigN.ofNat, BigN.mk.injEq]
  norm_num at h ⊢
  omega

theorem BigN.val_lt (a : BigN) (h : a.wf) : a.val < 2 ^ 128 := by
  simp only [BigN.wf] at h
  simp only [BigN.val]
  norm_num at h ⊢
  omega

theorem BigN.wf_ofNat (n : Nat) : (BigN.ofNat n).wf := by
  simp only [BigN.wf, BigN.ofNat]
  constructor <;> exact Nat.mod_lt _ (by norm_num)

theorem bign_divide_ten_words (lo hi : Nat) (hlo : lo < 2 ^ 64) (hhi : hi < 2 ^ 64) :
    ∃ q r, bign_divide ⟨lo, hi⟩ 10 = some (q, r) ∧ q.wf ∧
      hi * 2 ^ 64 + lo = 10 * q.val + r ∧ r < 10 := by
  simp only [bign_divide, u64, LL_MAX, BigN.wf, BigN.val]
  norm_num at hlo hhi ⊢
  by_cases h0 : hi = 0
  · subst h0
    simp only [if_true]
    refine ⟨_, _, rfl, ?_⟩
    dsimp only
    refine ⟨⟨?_, ?_⟩, ?_, ?_⟩ <;> omega
  · simp only [h0, if_false]
    have hb : hi % 10 < 10 := Nat.mod_lt _ (by norm_num)
    have hc : lo % 10 < 10 := Nat.mod_lt _ (by norm_num)
    have hhi' := Nat.div_add_mod hi 10
    have hlo' := Nat.div_add_mod lo 10
    generalize hi % 10 = b at *
    generalize lo % 10 = c at *
    generalize hi / 10 = g at *
    generalize lo / 10 = d at *
    have e5 : (5 * b + b + c) % 18446744073709551616 = 6 * b + c := by omega
    rw [e5]
    have e6 := Nat.div_add_mod (6 * b + c) 10
    have e7 : (6 * b + c) % 10 < 10 := Nat.mod_lt _ (by norm_num)
    generalize (6 * b + c) % 10 = r at *
    generalize (6 * b + c) / 10 = t at *
    have e8 : (d + 1844674407370955161 * b + t) % 18446744073709551616
        = d + 1844674407370955161 * b + t := by omega
    rw [e8]
    refine ⟨_, _, rfl, ?_⟩
    dsimp only
    refine ⟨⟨?_, ?_⟩, ?_, ?_⟩ <;> omega


theorem BigN.val_eq_zero (a : BigN) : a.val = 0 ↔ a.lower = 0 ∧ a.upper = 0 := by
  simp only [BigN.val]
  norm_num
  omega

theorem digit_loop_zero (fuel : Nat) (num : BigN) (string : List Nat) (ptr : Nat)
    (h : num.val = 0) : digit_loop fuel num string ptr = some (num, string, ptr) := by
  have h' := (BigN.val_eq_zero num).1 h
  cases fuel <;> simp [digit_loop, h'.1, h'.2]

theorem digit_loop_spec (fuel : Nat) : ∀ (num : BigN) (pre rest : List Nat), num.wf →
    (Nat.digits 10 num.val).length ≤ fuel →
    (Nat.digits 10 num.val).length ≤ rest.length →
    digit_loop fuel num (pre ++ rest) pre.length =
      some (⟨0, 0⟩, pre ++ (Nat.digits 10 num.val).map (fun d => d + 48)
          ++ rest.drop (Nat.digits 10 num.val).length,
        pre.length + (Nat.digits 10 num.val).length) := by
  induction fuel with
  | zero =>
    intro num pre rest _ hfuel _
    have hz : num.val = 0 := by
      by_contra hne
      have := (Nat.digits_ne_nil_iff_ne_zero (b := 10)).2 hne
      exact this (List.length_eq_zero.1 (Nat.le_zero.1 hfuel))
    have h' := (BigN.val_eq_zero num).1 hz
    obtain ⟨lo, hi⟩ := num
    simp only at h'
    obtain ⟨rfl, rfl⟩ := h'
    rw [digit_loop_zero _ _ _ _ hz, hz]
    simp
  | succ fuel ih =>
    intro num pre rest hwf hfuel hrest
    by_cases hz : num.val = 0
    · have h' := (BigN.val_eq_zero num).1 hz
      obtain ⟨lo, hi⟩ := num
      simp only at h'
      obtain ⟨rfl, rfl⟩ := h'
      rw [digit_loop_zero _ _ _ _ hz, hz]
      simp
    · have hpos : 0 < num.val := Nat.pos_of_ne_zero hz
      have hcond : num.lower ≠ 0 ∨ num.upper ≠ 0 := by
        by_contra hc
        push_neg at hc
        exact hz ((BigN.val_eq_zero num).2 hc)
      obtain ⟨q, r, hdiv, hq, hval, hr⟩ := bign_divide_ten_words num.lower num.upper hwf.1 hwf.2
      have hqv : q.val = num.val / 10 := by
        have : num.val = 10 * q.val + r := hval
        omega
      have hrv : r = num.val % 10 := by
        have : num.val = 10 * q.val + r := hval
        omega
      rw [Nat.digits_def' (by norm_num) hpos] at hfuel hrest ⊢
      simp only [List.length_cons] at hfuel hrest
      obtain ⟨c, rest', rfl⟩ : ∃ c rest', rest = c :: rest' := by
        cases rest with
        | nil => simp at hrest
        | cons c rest' => exact ⟨c, rest', rfl⟩
      simp only [List.length_cons] at hrest
      have hstore : store_char (pre ++ c :: rest') pre.length ((r % 256 + 48) % 256)
          = some ((pre ++ [r + 48]) ++ rest') := by
        simp only [store_char, List.length_append, List.length_cons]
        rw [if_pos (by omega)]
        have : (r % 256 + 48) % 256 = r + 48 := by omega
        rw [this]
        simp
      have hstep : digit_loop (fuel + 1) num (pre ++ c :: rest') pre.length
          = digit_loop fuel q ((pre ++ [r + 48]) ++ rest') (pre ++ [r + 48]).length := by
        rw [digit_loop, if_pos hcond]
        show (match bign_divide ⟨num.lower, num.upper⟩ 10 with
          | none => none
          | some (num, remainder) => _) = _
        rw [hdiv]
        simp only [hstore, List.length_append, List.length_singleton]
      rw [hstep, ih q (pre ++ [r + 48]) rest' hq (by rw [hqv]; omega) (by rw [hqv]; omega)]
      rw [hqv, ← hrv]
      simp only [List.length_append, List.length_singleton, List.map_cons, List.length_cons,
        List.drop_succ_cons, List.append_assoc, List.singleton_append, Option.some.injEq,
        List.length_nil, Prod.mk.injEq, true_and]
      omega

/-! ## The reversal loop -/

theorem get_at_length (A : List Nat) (x : Nat) (T : List Nat) :
    (A ++ x :: T).get? A.length = some x := by
  induction A with
  | nil => rfl
  | cons a A ih => simpa using ih

theorem set_at_length (A : List Nat) (x y : Nat) (T : List Nat) :
    (A ++ x :: T).set A.length y = A ++ y :: T := by
  simp

theorem store_char_at_length (A : List Nat) (x y : Nat) (T : List Nat) :
    store_char (A ++ x :: T) A.length y = some (A ++ y :: T) := by
  simp [store_char]

theorem reverse_loop_done (fuel ptr i : Nat) (string : List Nat) (h : ¬ i ≤ ptr / 2) :
    reverse_loop fuel ptr i string = some string := by
  cases fuel <;> simp [reverse_loop, h]

theorem reverse_loop_spec (M : List Nat) : ∀ (fuel ptr : Nat) (A B rest : List Nat),
    A.length = B.length → 2 * A.length + M.length = ptr + 1 → M.length ≤ fuel →
    reverse_loop fuel ptr A.length (A ++ M ++ B ++ rest) = some (A ++ M.reverse ++ B ++ rest) := by
  induction M using List.bidirectionalRec with
  | nil =>
    intro fuel ptr A B rest _ hp _
    simp only [List.length_nil, Nat.add_zero] at hp
    rw [reverse_loop_done _ _ _ _ (by omega)]
    simp
  | singleton x =>
    intro fuel ptr A B rest hAB hp hfuel
    simp only [List.length_singleton] at hp hfuel
    obtain ⟨fuel, rfl⟩ : ∃ f, fuel = f + 1 := ⟨fuel - 1, by omega⟩
    have hi : ptr - A.length = A.length := by omega
    have hs : A ++ [x] ++ B ++ rest = A ++ x :: (B ++ rest) := by simp
    rw [reverse_loop, if_pos (by omega), hi, hs, get_at_length]
    simp only [store_char_at_length]
    rw [reverse_loop_done _ _ _ _ (by omega)]
    simp
  | cons_append x M y ih =>
    intro fuel ptr A B rest hAB hp hfuel
    simp only [List.length_cons, List.length_append, List.length_nil] at hp hfuel
    obtain ⟨fuel, rfl⟩ : ∃ f, fuel = f + 1 := ⟨fuel - 1, by omega⟩
    have hi : ptr - A.length = (A ++ x :: M).length := by
      simp only [List.length_append, List.length_cons]
      omega
    have hs1 : A ++ (x :: (M ++ [y])) ++ B ++ rest = A ++ x :: (M ++ y :: (B ++ rest)) := by simp
    have hs2 : A ++ x :: (M ++ y :: (B ++ rest)) = (A ++ x :: M) ++ y :: (B ++ rest) := by simp
    have hs3 : A ++ y :: (M ++ y :: (B ++ rest)) = (A ++ y :: M) ++ y :: (B ++ rest) := by simp
    have hl : (A ++ x :: M).length = (A ++ y :: M).length := by simp
    rw [reverse_loop, if_pos (by omega), hi, hs1, get_at_length]
    rw [hs2, get_at_length, ← hs2]
    simp only [store_char_at_length]
    rw [hs3, hl, store_char_at_length]
    have hs4 : (A ++ y :: M) ++ x :: (B ++ rest) = (A ++ [y]) ++ M ++ (x :: B) ++ rest := by simp
    have hl2 : A.length + 1 = (A ++ [y]).length := by simp
    dsimp only
    rw [hs4, hl2, ih fuel ptr (A ++ [y]) (x :: B) rest (by simp [hAB])
      (by simp only [List.length_append, List.length_singleton]; omega) (by omega)]
    simp

/-! ## Decimal digits -/

theorem digitChar_toNat (d : Nat) (h : d < 10) : (Nat.digitChar d).toNat = d + 48 := by
  interval_cases d <;> rfl

theorem toDigitsCore_eq (fuel : Nat) : ∀ (n : Nat) (ds : List Char), 0 < n → n < fuel →
    Nat.toDigitsCore 10 fuel n ds = ((Nat.digits 10 n).map Nat.digitChar).reverse ++ ds := by
  induction fuel with
  | zero => intro n ds _ h; omega
  | succ fuel ih =>
    intro n ds hpos hlt
    rw [Nat.toDigitsCore, Nat.digits_def' (by norm_num) hpos]
    by_cases h0 : n / 10 = 0
    · simp [h0]
    · simp only [h0, if_false]
      rw [ih (n / 10) _ (Nat.pos_of_ne_zero h0) (by omega)]
      simp

theorem toDigits_eq (n : Nat) (h : n ≠ 0) :
    (Nat.toDigits 10 n).map Char.toNat = ((Nat.digits 10 n).map (fun d => d + 48)).reverse := by
  rw [Nat.toDigits, toDigitsCore_eq _ _ _ (Nat.pos_of_ne_zero h) (Nat.lt_succ_self n)]
  simp only [List.append_nil, List.map_reverse, List.map_map]
  congr 1
  apply List.map_congr_left
  intro d hd
  exact digitChar_toNat d (Nat.digits_lt_base (by norm_num) hd)

theorem toDigits_zero : (Nat.toDigits 10 0).map Char.toNat = [48] := by decide

theorem c_string_append_zero (L T : List Nat) (h : ∀ c ∈ L, c ≠ 0) :
    c_string (L ++ 0 :: T) = L := by
  induction L with
  | nil => simp [c_string]
  | cons a L ih =>
    have ha : a ≠ 0 := h a (List.mem_cons_self _ _)
    have := ih (fun c hc => h c (List.mem_cons_of_mem _ hc))
    simp only [c_string] at this ⊢
    simpa [List.takeWhile, ha] using this

theorem digits_length_le (n : Nat) (h : n < 2 ^ 128) : (Nat.digits 10 n).length ≤ 39 := by
  by_cases h0 : n = 0
  · simp [h0]
  · by_contra hc
    push_neg at hc
    have h1 := Nat.base_pow_length_digits_le 10 n (by norm_num) h0
    have h2 : 10 ^ 40 ≤ 10 ^ (Nat.digits 10 n).length :=
      Nat.pow_le_pow_right (by norm_num) hc
    norm_num at h h2
    omega

/-! ## The formatter -/

/-- What `bign2string` leaves in the first `STRING_LEN` bytes for a value `n`:
the decimal digits, most significant first, as character codes. -/
theorem bign2string_spec (num : BigN) (string : List Nat) (hwf : num.wf)
    (hlen : STRING_LEN ≤ string.length) :
    ∃ pad, bign2string num string
      = some ((Nat.toDigits 10 num.val).map Char.toNat ++ 0 :: pad) ∧
      ((Nat.toDigits 10 num.val).map Char.toNat ++ 0 :: pad).length = string.length ∧
      ((Nat.toDigits 10 num.val).map Char.toNat).length ≤ 39 ∧
      ((Nat.toDigits 10 num.val).map Char.toNat ++ 0 :: pad).get? 39 = some 0 := by
  have hmem : memset_string string
      = some (List.replicate STRING_LEN 0 ++ string.drop STRING_LEN) := by
    simp [memset_string, hlen]
  simp only [STRING_LEN] at hlen hmem
  by_cases hz : num.val = 0
  · have h' := (BigN.val_eq_zero num).1 hz
    refine ⟨List.replicate 38 0 ++ string.drop 40, ?_, ?_, ?_, ?_⟩
    · simp only [bign2string, hmem, h'.1, h'.2, hz, toDigits_zero]
      simp [store_char, List.replicate]
    · simp only [hz, toDigits_zero]
      simp
      omega
    · simp [hz, toDigits_zero]
    · simp only [hz, toDigits_zero]
      simp [List.replicate]
  · have hcond : ¬ (num.lower = 0 ∧ num.upper = 0) := fun hc => hz ((BigN.val_eq_zero num).2 hc)
    have hd := digits_length_le num.val (BigN.val_lt num hwf)
    have hne : Nat.digits 10 num.val ≠ [] := Nat.digits_ne_nil_iff_ne_zero.2 hz
    have hpos : 0 < (Nat.digits 10 num.val).length := List.length_pos.2 hne
    have hloop := digit_loop_spec 128 num [] (List.replicate 40 0 ++ string.drop 40) hwf
      (by omega) (by simp; omega)
    simp only [List.nil_append, List.length_nil, Nat.zero_add] at hloop
    rw [toDigits_eq _ hz]
    generalize hD : Nat.digits 10 num.val = D at *
    have hdrop : List.drop D.length (List.replicate 40 0 ++ string.drop 40)
        = 0 :: (List.replicate (39 - D.length) 0 ++ string.drop 40) := by
      rw [List.drop_append_of_le_length (by simp; omega)]
      simp only [List.drop_replicate]
      have : 40 - D.length = (39 - D.length) + 1 := by omega
      rw [this, List.replicate_succ]
      simp
    refine ⟨List.replicate (39 - D.length) 0 ++ string.drop 40, ?_, ?_, ?_, ?_⟩
    · simp only [bign2string, hmem, hcond, if_false, hloop]
      rw [if_neg (by omega), hdrop]
      have := reverse_loop_spec (D.map (fun d => d + 48)) STRING_LEN (D.length - 1) [] []
        (0 :: (List.replicate (39 - D.length) 0 ++ string.drop 40)) rfl
        (by simp; omega) (by simp [STRING_LEN]; omega)
      simpa using this
    · simp
      omega
    · simpa using hd
    · have hrep : 0 :: (List.replicate (39 - D.length) 0 ++ string.drop 40)
          = List.replicate (40 - D.length) 0 ++ string.drop 40 := by
        have : 40 - D.length = (39 - D.length) + 1 := by omega
        rw [this, List.replicate_succ]
        simp
      rw [hrep, List.get?_eq_getElem?, List.getElem?_append_right (by simpa using hd),
        List.getElem?_append_left (by simp; omega), List.getElem?_replicate]
      simp only [List.length_reverse, List.length_map]
      rw [if_pos (by omega)]

theorem ofDigits_foldl (D : List Nat) (h : ∀ d ∈ D, d < 10) :
    ((D.map (fun d => d + 48)).reverse).foldl (fun acc c => 10 * acc + (c - 48)) 0
      = Nat.ofDigits 10 D := by
  rw [List.foldl_reverse]
  induction D with
  | nil => simp
  | cons d D ih =>
    have := ih (fun x hx => h x (List.mem_cons_of_mem _ hx))
    simp only [List.map_cons, List.foldr_cons, Nat.ofDigits_cons, this]
    simp
    ring

theorem decimal_props (n : Nat) :
    (∀ c ∈ (Nat.toDigits 10 n).map Char.toNat, 48 ≤ c ∧ c ≤ 57) ∧
    (n = 0 → (Nat.toDigits 10 n).map Char.toNat = [48]) ∧
    (n ≠ 0 → ((Nat.toDigits 10 n).map Char.toNat).head? ≠ some 48) ∧
    ((Nat.toDigits 10 n).map Char.toNat).foldl (fun acc c => 10 * acc + (c - 48)) 0 = n := by
  by_cases hz : n = 0
  · subst hz
    rw [toDigits_zero]
    simp
  · rw [toDigits_eq n hz]
    refine ⟨?_, fun h => absurd h hz, fun _ => ?_, ?_⟩
    · intro c hc
      simp only [List.mem_reverse, List.mem_map] at hc
      obtain ⟨d, hd, rfl⟩ := hc
      have := Nat.digits_lt_base (b := 10) (by norm_num) hd
      omega
    · have hne : Nat.digits 10 n ≠ [] := Nat.digits_ne_nil_iff_ne_zero.2 hz
      have hlast := Nat.getLast_digit_ne_zero 10 hz
      rw [List.head?_reverse, List.getLast?_map, List.getLast?_eq_getLast _ hne]
      simp only [Option.map_some', ne_eq, Option.some.injEq]
      omega
    · rw [ofDigits_foldl _ (fun d hd => Nat.digits_lt_base (by norm_num) hd),
        Nat.ofDigits_digits]

theorem c_text_toDigits (n : Nat) (pad : List Nat) :
    c_text ((Nat.toDigits 10 n).map Char.toNat ++ 0 :: pad) = Nat.repr n := by
  have h := decimal_props n
  rw [c_text, c_string_append_zero _ _ (fun c hc => by have := h.1 c hc; omega)]
  simp only [List.map_map, Nat.repr, List.asString]
  congr 1
  conv_rhs => rw [← List.map_id (Nat.toDigits 10 n)]
  apply List.map_congr_left
  intro c _
  simp

/-! ## The fast-doubling loop on small indices -/

theorem fib_number_small_1 : ∀ k : Nat, k ≤ 100 → 1 ≤ k →
    fib_number (k : Int) = some (BigN.ofNat (Nat.fib k)) := by
  decide!

theorem fib_number_small_2 : ∀ k : Nat, k ≤ 150 → 101 ≤ k →
    fib_number (k : Int) = some (BigN.ofNat (Nat.fib k)) := by
  decide!

theorem fib_number_small_3 : ∀ k : Nat, k ≤ 186 → 151 ≤ k →
    fib_number (k : Int) = some (BigN.ofNat (Nat.fib k)) := by
  decide!

theorem fib_number_small : ∀ k : Nat, k ≤ 186 → 1 ≤ k →
    fib_number (k : Int) = some (BigN.ofNat (Nat.fib k)) := by
  intro k hk hk1
  by_cases h1 : k ≤ 100
  · exact fib_number_small_1 k h1 hk1
  · by_cases h2 : k ≤ 150
    · exact fib_number_small_2 k h2 (by omega)
    · exact fib_number_small_3 k hk (by omega)

theorem fib_lt_of_le_186 (k : Nat) (h : k ≤ 186) : Nat.fib k < 2 ^ 128 := by
  have h1 : Nat.fib k ≤ Nat.fib 186 := Nat.fib_mono h
  have h2 : Nat.fib 186 < 2 ^ 128 := by decide
  omega

theorem fib_187_gt : 2 ^ 128 - 1 < Nat.fib 187 := by decide

theorem fib_sequence_zero (string : List Nat) (hlen : string.length = STRING_LEN) :
    ∃ pad, fib_sequence 0 string = some (48 :: 0 :: pad) := by
  match string, hlen with
  | a :: b :: rest, _ => exact ⟨rest, by simp [fib_sequence, store_char]⟩

theorem fib_sequence_pos (k : Nat) (string : List Nat) (hk : 1 ≤ k) (hk' : k ≤ 186)
    (hlen : string.length = STRING_LEN) :
    ∃ pad, fib_sequence (k : Int) string
      = some ((Nat.toDigits 10 (Nat.fib k)).map Char.toNat ++ 0 :: pad) := by
  have hk0 : ¬ ((k : Int) = 0) := by omega
  have hstore : store_char string 0 0 = some (string.set 0 0) := by
    simp [store_char, hlen, STRING_LEN]
  obtain ⟨pad, hpad, -, -⟩ := bign2string_spec (BigN.ofNat (Nat.fib k)) (string.set 0 0)
    (BigN.wf_ofNat _) (by simp [hlen])
  rw [BigN.val_ofNat _ (fib_lt_of_le_186 k hk')] at hpad
  refine ⟨pad, ?_⟩
  simp only [fib_sequence, hk0, if_false, hstore, fib_number_small k hk' hk, hpad]

theorem fib_sequence_spec (k : Nat) (string : List Nat) (hk : k ≤ 186)
    (hlen : string.length = STRING_LEN) :
    ∃ out, fib_sequence (k : Int) string = some out ∧
      c_string out = (Nat.toDigits 10 (Nat.fib k)).map Char.toNat ∧
      c_text out = Nat.repr (Nat.fib k) := by
  have key : ∃ pad, fib_sequence (k : Int) string
      = some ((Nat.toDigits 10 (Nat.fib k)).map Char.toNat ++ 0 :: pad) := by
    by_cases h0 : k = 0
    · subst h0
      obtain ⟨pad, h⟩ := fib_sequence_zero string hlen
      exact ⟨pad, by simpa [toDigits_zero] using h⟩
    · exact fib_sequence_pos k string (by omega) hk hlen
  obtain ⟨pad, h⟩ := key
  refine ⟨_, h, ?_, c_text_toDigits _ _⟩
  exact c_string_append_zero _ _ (fun c hc => by have := (decimal_props (Nat.fib k)).1 c hc; omega)

theorem fib_value_small (k : Nat) (hk : k ≤ 186) : fib_value (k : Int) = some (Nat.fib k) := by
  by_cases h0 : k = 0
  · subst h0
    simp [fib_value]
  · have hk0 : ¬ ((k : Int) = 0) := by omega
    simp only [fib_value, hk0, if_false, fib_number_small k hk (by omega), Option.map_some',
      BigN.val_ofNat _ (fib_lt_of_le_186 k hk)]

/-! ## Claims about `fib_sequence` -/

/-- C1: for every index `k` from 0 to 100 and every 40-byte buffer,
`fib_sequence` returns with the buffer holding, as a C string, exactly the
canonical decimal representation of the `k`-th Fibonacci number; in particular
the strings are "0", "1", "1", "55" and "6765" for `k` = 0, 1, 2, 10 and 20. -/
theorem fib_sequence_decimal (k : Nat) (string : List Nat) (hk : (k : Int) ≤ MAX_LENGTH)
    (hlen : string.length = STRING_LEN) :
    ∃ out, fib_sequence (k : Int) string = some out ∧
      c_string out = (Nat.toDigits 10 (Nat.fib k)).map Char.toNat ∧
      c_text out = Nat.repr (Nat.fib k) ∧
      (k = 0 → c_text out = "0") ∧ (k = 1 → c_text out = "1") ∧
      (k = 2 → c_text out = "1") ∧ (k = 10 → c_text out = "55") ∧
      (k = 20 → c_text out = "6765") := by
  have hk100 : k ≤ 100 := by
    simp only [MAX_LENGTH] at hk
    omega
  obtain ⟨out, h1, h2, h3⟩ := fib_sequence_spec k string (by omega) hlen
  refine ⟨out, h1, h2, h3, ?_, ?_, ?_, ?_, ?_⟩ <;> intro hk' <;> subst hk' <;> rw [h3] <;> decide

/-- C1 at `k = 20` and a buffer of forty bytes 7. -/
theorem fib_sequence_decimal_witness :
    (((20 : Nat) : Int) ≤ MAX_LENGTH ∧ (List.replicate 40 7).length = STRING_LEN) ∧
    ∃ out, fib_sequence ((20 : Nat) : Int) (List.replicate 40 7) = some out ∧
      c_string out = (Nat.toDigits 10 (Nat.fib 20)).map Char.toNat ∧
      c_text out = Nat.repr (Nat.fib 20) ∧
      ((20 : Nat) = 0 → c_text out = "0") ∧ ((20 : Nat) = 1 → c_text out = "1") ∧
      ((20 : Nat) = 2 → c_text out = "1") ∧ ((20 : Nat) = 10 → c_text out = "55") ∧
      ((20 : Nat) = 20 → c_text out = "6765") :=
  ⟨⟨by decide, by decide⟩, fib_sequence_decimal 20 (List.replicate 40 7) (by decide) (by decide)⟩

/-- C2: for every `k ≥ 1` with `F(k+1) ≤ 2^128 - 1`, the values computed by
`fib_sequence` for `k - 1`, `k` and `k + 1` exist and satisfy
`compute(k) + compute(k-1) = compute(k+1)` as exact integers. -/
theorem fib_value_recurrence (k : Nat) (hk : 1 ≤ k) (hfit : Nat.fib (k + 1) ≤ 2 ^ 128 - 1) :
    ∃ a b c, fib_value ((k - 1 : Nat) : Int) = some a ∧ fib_value (k : Int) = some b ∧
      fib_value ((k + 1 : Nat) : Int) = some c ∧ b + a = c := by
  have hk' : k ≤ 185 := by
    by_contra hc
    have h1 : Nat.fib 187 ≤ Nat.fib (k + 1) := Nat.fib_mono (by omega)
    have h2 := fib_187_gt
    omega
  refine ⟨_, _, _, fib_value_small (k - 1) (by omega), fib_value_small k (by omega),
    fib_value_small (k + 1) (by omega), ?_⟩
  obtain ⟨n, rfl⟩ : ∃ n, k = n + 1 := ⟨k - 1, by omega⟩
  rw [Nat.add_sub_cancel, Nat.fib_add_two (n := n)]
  omega

/-- C2 at `k = 185`, the largest index it covers. -/
theorem fib_value_recurrence_witness :
    (1 ≤ 185 ∧ Nat.fib (185 + 1) ≤ 2 ^ 128 - 1) ∧
    ∃ a b c, fib_value ((185 - 1 : Nat) : Int) = some a ∧ fib_value ((185 : Nat) : Int) = some b ∧
      fib_value ((185 + 1 : Nat) : Int) = some c ∧ b + a = c :=
  ⟨⟨by decide, by decide⟩, fib_value_recurrence 185 (by decide) (by decide)⟩

/-- C3 (counterexample): `F(186)` does not exceed `2^128 - 1`, and for
`k = 186` `fib_sequence` returns with the digits of `F(186)` in the buffer
instead of failing. -/
theorem fib_sequence_186_succeeds :
    Nat.fib 186 ≤ 2 ^ 128 - 1 ∧
    (fib_sequence 186 (List.replicate 40 0)).map c_text
      = some "332825110087067562321196029789634457848" := by
  refine ⟨by decide, ?_⟩
  obtain ⟨out, h1, -, h3⟩ := fib_sequence_spec 186 (List.replicate 40 0) (by omega) (by decide)
  have h1' : fib_sequence 186 (List.replicate 40 0) = some out := h1
  rw [h1', Option.map_some', h3]
  decide

/-- C3 (as corrected): the smallest `k` such that `F(k)` exceeds `2^128 - 1` is 187,
and `fib_sequence` succeeds for `k = 185` and for `k = 186` with the decimal
digits of `F(185)` and `F(186)`. -/
theorem fib_sequence_185_186 (string : List Nat) (hlen : string.length = STRING_LEN) :
    (∀ k : Nat, 2 ^ 128 - 1 < Nat.fib k ↔ 187 ≤ k) ∧
    (∃ out, fib_sequence 185 string = some out ∧ c_text out = Nat.repr (Nat.fib 185)) ∧
    (∃ out, fib_sequence 186 string = some out ∧ c_text out = Nat.repr (Nat.fib 186)) := by
  refine ⟨fun k => ⟨fun h => ?_, fun h => ?_⟩, ?_, ?_⟩
  · by_contra hc
    have := fib_lt_of_le_186 k (by omega)
    omega
  · have h1 : Nat.fib 187 ≤ Nat.fib k := Nat.fib_mono h
    have h2 := fib_187_gt
    omega
  · obtain ⟨out, h1, -, h3⟩ := fib_sequence_spec 185 string (by omega) hlen
    exact ⟨out, h1, h3⟩
  · obtain ⟨out, h1, -, h3⟩ := fib_sequence_spec 186 string (by omega) hlen
    exact ⟨out, h1, h3⟩

/-- C3 (as corrected) at a buffer of forty bytes 7. -/
theorem fib_sequence_185_186_witness :
    (List.replicate 40 7).length = STRING_LEN ∧
    ((∀ k : Nat, 2 ^ 128 - 1 < Nat.fib k ↔ 187 ≤ k) ∧
    (∃ out, fib_sequence 185 (List.replicate 40 7) = some out ∧
      c_text out = Nat.repr (Nat.fib 185)) ∧
    (∃ out, fib_sequence 186 (List.replicate 40 7) = some out ∧
      c_text out = Nat.repr (Nat.fib 186))) :=
  ⟨by decide, fib_sequence_185_186 (List.replicate 40 7) (by decide)⟩

/-! ## Claims about the formatter and the arithmetic -/

/-- C4: for every 128-bit value `v` and every 40-byte buffer, `bign2string`
returns with the buffer holding the canonical decimal representation of `v`:
only the characters '0'..'9', most significant digit first, exactly "0" when
`v = 0` and no leading zero otherwise, so that reading the string back as a
decimal number gives `v`. -/
theorem bign2string_canonical (num : BigN) (string : List Nat) (hwf : num.wf)
    (hlen : string.length = STRING_LEN) :
    ∃ out, bign2string num string = some out ∧
      c_string out = (Nat.toDigits 10 num.val).map Char.toNat ∧
      c_text out = Nat.repr num.val ∧
      (∀ c ∈ c_string out, 48 ≤ c ∧ c ≤ 57) ∧
      (num.val = 0 → c_string out = [48]) ∧
      (num.val ≠ 0 → (c_string out).head? ≠ some 48) ∧
      (c_string out).foldl (fun acc c => 10 * acc + (c - 48)) 0 = num.val := by
  obtain ⟨pad, h, -, -⟩ := bign2string_spec num string hwf (by omega)
  have hp := decimal_props num.val
  have hc : c_string ((Nat.toDigits 10 num.val).map Char.toNat ++ 0 :: pad)
      = (Nat.toDigits 10 num.val).map Char.toNat :=
    c_string_append_zero _ _ (fun c hc => by have := hp.1 c hc; omega)
  refine ⟨_, h, hc, c_text_toDigits _ _, ?_, ?_, ?_, ?_⟩
  · rw [hc]; exact hp.1
  · rw [hc]; exact hp.2.1
  · rw [hc]; exact hp.2.2.1
  · rw [hc]; exact hp.2.2.2

/-- C4 at the value `2^64 + 6765` and a buffer of forty bytes 7. -/
theorem bign2string_canonical_witness :
    ((⟨6765, 1⟩ : BigN).wf ∧ (List.replicate 40 7).length = STRING_LEN) ∧
    ∃ out, bign2string ⟨6765, 1⟩ (List.replicate 40 7) = some out ∧
      c_string out = (Nat.toDigits 10 (⟨6765, 1⟩ : BigN).val).map Char.toNat ∧
      c_text out = Nat.repr (⟨6765, 1⟩ : BigN).val ∧
      (∀ c ∈ c_string out, 48 ≤ c ∧ c ≤ 57) ∧
      ((⟨6765, 1⟩ : BigN).val = 0 → c_string out = [48]) ∧
      ((⟨6765, 1⟩ : BigN).val ≠ 0 → (c_string out).head? ≠ some 48) ∧
      (c_string out).foldl (fun acc c => 10 * acc + (c - 48)) 0 = (⟨6765, 1⟩ : BigN).val :=
  ⟨⟨by decide, by decide⟩,
    bign2string_canonical ⟨6765, 1⟩ (List.replicate 40 7) (by decide) (by decide)⟩

/-- C5: for every 128-bit input and every 40-byte buffer, the digit loop of
`bign2string` ends within 39 iterations with `ptr ≤ 39`, so its writes use
indices up to 38 only and the bytes from `ptr` on (byte 39 among them) keep the
zero of the initial `memset`; the buffer returned by `bign2string` still has
40 bytes, ends with a zero byte, and holds a C string of at most 39
characters. -/
theorem bign2string_bounded (num : BigN) (string : List Nat) (hwf : num.wf)
    (hlen : string.length = STRING_LEN) :
    (∃ cleared loop ptr, memset_string string = some cleared ∧
      digit_loop 39 num cleared 0 = some (⟨0, 0⟩, loop, ptr) ∧
      (∀ fuel, 39 ≤ fuel → digit_loop fuel num cleared 0 = some (⟨0, 0⟩, loop, ptr)) ∧
      ptr ≤ 39 ∧ loop.length = STRING_LEN ∧
      ∀ i, ptr ≤ i → i < STRING_LEN → loop.get? i = some 0) ∧
    ∃ out, bign2string num string = some out ∧ out.length = STRING_LEN ∧
      out.get? 39 = some 0 ∧ (c_string out).length ≤ 39 := by
  constructor
  · have hmem : memset_string string = some (List.replicate 40 0) := by
      simp only [memset_string, STRING_LEN] at hlen ⊢
      rw [if_pos (by omega), List.drop_of_length_le (by omega)]
      simp
    have hd := digits_length_le num.val (BigN.val_lt num hwf)
    have hloop : ∀ fuel, 39 ≤ fuel → digit_loop fuel num (List.replicate 40 0) 0
        = some (⟨0, 0⟩, (Nat.digits 10 num.val).map (fun d => d + 48)
            ++ List.replicate (40 - (Nat.digits 10 num.val).length) 0,
          (Nat.digits 10 num.val).length) := by
      intro fuel hfuel
      have := digit_loop_spec fuel num [] (List.replicate 40 0) hwf (by omega)
        (by rw [List.length_replicate]; omega)
      simp only [List.nil_append, List.length_nil, Nat.zero_add, List.drop_replicate] at this
      exact this
    refine ⟨_, _, _, hmem, hloop 39 (le_refl _), hloop, hd, ?_, ?_⟩
    · simp [STRING_LEN]; omega
    · intro i hi hi'
      simp only [STRING_LEN] at hi'
      rw [List.get?_eq_getElem?, List.getElem?_append_right (by simpa using hi)]
      simp only [List.length_map]
      rw [List.getElem?_replicate]
      rw [if_pos (by omega)]
  · obtain ⟨pad, h, hl, hlen', h39⟩ := bign2string_spec num string hwf (by omega)
    have hp := decimal_props num.val
    have hc : c_string ((Nat.toDigits 10 num.val).map Char.toNat ++ 0 :: pad)
        = (Nat.toDigits 10 num.val).map Char.toNat :=
      c_string_append_zero _ _ (fun c hc => by have := hp.1 c hc; omega)
    exact ⟨_, h, by rw [hl, hlen], h39, by rw [hc]; exact hlen'⟩

/-- C5 at the largest 128-bit value and a buffer of forty bytes 7. -/
theorem bign2string_bounded_witness :
    ((⟨2 ^ 64 - 1, 2 ^ 64 - 1⟩ : BigN).wf ∧ (List.replicate 40 7).length = STRING_LEN) ∧
    ((∃ cleared loop ptr, memset_string (List.replicate 40 7) = some cleared ∧
      digit_loop 39 ⟨2 ^ 64 - 1, 2 ^ 64 - 1⟩ cleared 0 = some (⟨0, 0⟩, loop, ptr) ∧
      (∀ fuel, 39 ≤ fuel →
        digit_loop fuel ⟨2 ^ 64 - 1, 2 ^ 64 - 1⟩ cleared 0 = some (⟨0, 0⟩, loop, ptr)) ∧
      ptr ≤ 39 ∧ loop.length = STRING_LEN ∧
      ∀ i, ptr ≤ i → i < STRING_LEN → loop.get? i = some 0) ∧
    ∃ out, bign2string ⟨2 ^ 64 - 1, 2 ^ 64 - 1⟩ (List.replicate 40 7) = some out ∧
      out.length = STRING_LEN ∧ out.get? 39 = some 0 ∧ (c_string out).length ≤ 39) :=
  ⟨⟨by decide, by decide⟩,
    bign2string_bounded ⟨2 ^ 64 - 1, 2 ^ 64 - 1⟩ (List.replicate 40 7) (by decide) (by decide)⟩

/-- C6 (failing input): for `a = b = 2^64 - 1` (upper words zero)
`bign_multiple` returns 0 and stores a value that is not the product `a * b`:
it is `a * b - 2^96`. -/
theorem bign_multiple_inexact :
    ∃ r, bign_multiple ⟨2 ^ 64 - 1, 0⟩ ⟨2 ^ 64 - 1, 0⟩ false = (0, some r) ∧
      r.val ≠ (⟨2 ^ 64 - 1, 0⟩ : BigN).val * (⟨2 ^ 64 - 1, 0⟩ : BigN).val ∧
      r.val + 2 ^ 96 = (⟨2 ^ 64 - 1, 0⟩ : BigN).val * (⟨2 ^ 64 - 1, 0⟩ : BigN).val :=
  ⟨⟨1, 18446744069414584318⟩, by decide, by decide, by decide⟩

/-- C7 (failing input): for `x = y = 2^64 - 1` the value `long_long_multiple`
stores is not the product `x * y`: it is `x * y - 2^96`. -/
theorem long_long_multiple_inexact :
    (long_long_multiple (2 ^ 64 - 1) (2 ^ 64 - 1)).2.val ≠ (2 ^ 64 - 1) * (2 ^ 64 - 1) ∧
    (long_long_multiple (2 ^ 64 - 1) (2 ^ 64 - 1)).2.val + 2 ^ 96
      = (2 ^ 64 - 1) * (2 ^ 64 - 1) := by
  decide

/-- C8 (failing input): for the dividend `3 * 2^64` and the divisor `2^63`
`bign_divide` leaves the quotient 4 and the remainder 0, although
`4 * 2^63 + 0` is not `3 * 2^64`. -/
theorem bign_divide_large_divisor :
    bign_divide ⟨0, 3⟩ (2 ^ 63) = some (⟨4, 0⟩, 0) ∧
    (⟨4, 0⟩ : BigN).val * 2 ^ 63 + 0 ≠ (⟨0, 3⟩ : BigN).val := by
  decide

/-- C9 (failing input): `bign_add` returns 1 for `0 + 0`, whose sum does not
exceed `2^128 - 1`. -/
theorem bign_add_flag_zero :
    (bign_add ⟨0, 0⟩ ⟨0, 0⟩).1 = 1 ∧
    (⟨0, 0⟩ : BigN).val + (⟨0, 0⟩ : BigN).val ≤ 2 ^ 128 - 1 := by
  decide

/-- C10: for all 128-bit `a` and `b`, the value `bign_add` stores is
`(a + b) mod 2^128`: the lower word is `(a.lower + b.lower) mod 2^64`, the
upper word is `(a.upper + b.upper + carry) mod 2^64` with `carry = 1` exactly
when `a.lower + b.lower ≥ 2^64`, and the stored value is `a + b` itself
whenever `a + b ≤ 2^128 - 1`. -/
theorem bign_add_value (a b : BigN) (ha : a.wf) (hb : b.wf) :
    (bign_add a b).2.lower = (a.lower + b.lower) % 2 ^ 64 ∧
    (bign_add a b).2.upper
      = (a.upper + b.upper + if 2 ^ 64 ≤ a.lower + b.lower then 1 else 0) % 2 ^ 64 ∧
    (bign_add a b).2.val = (a.val + b.val) % 2 ^ 128 ∧
    (a.val + b.val ≤ 2 ^ 128 - 1 → (bign_add a b).2.val = a.val + b.val) := by
  obtain ⟨al, au⟩ := a
  obtain ⟨bl, bu⟩ := b
  simp only [BigN.wf] at ha hb
  have hres : (bign_add ⟨al, au⟩ ⟨bl, bu⟩).2
      = ⟨(al + bl) % 2 ^ 64, (au + bu + if 2 ^ 64 ≤ al + bl then 1 else 0) % 2 ^ 64⟩ := by
    simp only [bign_add, u64]
    have hc : (if (al + bl) % 2 ^ 64 < al then 1 else 0)
        = (if 2 ^ 64 ≤ al + bl then 1 else 0) := by
      norm_num at ha hb ⊢
      split_ifs <;> omega
    rw [hc]
    split_ifs <;> simp only [BigN.mk.injEq, true_and] <;> norm_num
  rw [hres]
  simp only [BigN.val]
  norm_num at ha hb ⊢
  refine ⟨?_, ?_⟩
  · split_ifs <;> omega
  · intro h
    split_ifs <;> omega

/-- C10 at two operands whose lower words carry into the upper word. -/
theorem bign_add_value_witness :
    ((⟨2 ^ 64 - 1, 5⟩ : BigN).wf ∧ (⟨1, 7⟩ : BigN).wf) ∧
    ((bign_add ⟨2 ^ 64 - 1, 5⟩ ⟨1, 7⟩).2.lower = (2 ^ 64 - 1 + 1) % 2 ^ 64 ∧
    (bign_add ⟨2 ^ 64 - 1, 5⟩ ⟨1, 7⟩).2.upper
      = (5 + 7 + if 2 ^ 64 ≤ 2 ^ 64 - 1 + 1 then 1 else 0) % 2 ^ 64 ∧
    (bign_add ⟨2 ^ 64 - 1, 5⟩ ⟨1, 7⟩).2.val
      = ((⟨2 ^ 64 - 1, 5⟩ : BigN).val + (⟨1, 7⟩ : BigN).val) % 2 ^ 128 ∧
    ((⟨2 ^ 64 - 1, 5⟩ : BigN).val + (⟨1, 7⟩ : BigN).val ≤ 2 ^ 128 - 1 →
      (bign_add ⟨2 ^ 64 - 1, 5⟩ ⟨1, 7⟩).2.val
        = (⟨2 ^ 64 - 1, 5⟩ : BigN).val + (⟨1, 7⟩ : BigN).val)) :=
  ⟨⟨by decide, by decide⟩, bign_add_value ⟨2 ^ 64 - 1, 5⟩ ⟨1, 7⟩ (by decide) (by decide)⟩

/-! ## Words and bit masks -/

theorem and_shiftLeft_shiftRight (m x s : Nat) :
    ((m <<< s) &&& x) >>> s = m &&& (x >>> s) := by
  apply Nat.eq_of_testBit_eq
  intro j
  simp [Nat.testBit_shiftRight, Nat.testBit_and, Nat.testBit_shiftLeft]

theorem not64_mask (n : Nat) (hn : n ≤ 64) :
    not64 (LL_MAX >>> n) = (2 ^ n - 1) <<< (64 - n) := by
  interval_cases n <;> rfl

theorem shift_carry_bits (x n : Nat) (hx : x < 2 ^ 64) (hn : n ≤ 64) :
    (not64 (LL_MAX >>> n) &&& x) >>> (64 - n) = x / 2 ^ (64 - n) := by
  rw [not64_mask n hn, and_shiftLeft_shiftRight, Nat.and_comm, Nat.and_pow_two_sub_one_eq_mod,
    Nat.shiftRight_eq_div_pow]
  apply Nat.mod_eq_of_lt
  rw [Nat.div_lt_iff_lt_mul (Nat.pos_pow_of_pos _ (by norm_num))]
  calc x < 2 ^ 64 := hx
    _ = 2 ^ (n + (64 - n)) := by congr 1; omega
    _ = 2 ^ n * 2 ^ (64 - n) := Nat.pow_add _ _ _

theorem upper_half (x : Nat) (hx : x < 2 ^ 64) :
    (x &&& LONG_LONG_UPPER) >>> 32 = x / 2 ^ 32 := by
  have h := shift_carry_bits x 32 hx (by norm_num)
  have e : not64 (LL_MAX >>> 32) = LONG_LONG_UPPER := by rfl
  rw [e, Nat.and_comm] at h
  exact h

theorem lower_half (x : Nat) : x &&& LONG_LONG_LOWER = x % 2 ^ 32 := by
  have e : LONG_LONG_LOWER = 2 ^ 32 - 1 := by rfl
  rw [e, Nat.and_pow_two_sub_one_eq_mod]

theorem bign_add_words (al au bl bu : Nat) (hal : al < 2 ^ 64) (hbl : bl < 2 ^ 64) :
    (bign_add ⟨al, au⟩ ⟨bl, bu⟩).2
      = ⟨(al + bl) % 2 ^ 64, (au + bu + if 2 ^ 64 ≤ al + bl then 1 else 0) % 2 ^ 64⟩ := by
  simp only [bign_add, u64]
  have hc : (if (al + bl) % 2 ^ 64 < al then 1 else 0)
      = (if 2 ^ 64 ≤ al + bl then 1 else 0) := by
    norm_num at hal hbl ⊢
    split_ifs <;> omega
  rw [hc]
  split_ifs <;> simp only [BigN.mk.injEq, true_and] <;> norm_num

/-- What `long_long_multiple` stores, in terms of the four partial products
of the 32-bit halves. -/
theorem long_long_multiple_words (x y : Nat) (hx : x < 2 ^ 64) (hy : y < 2 ^ 64) :
    (long_long_multiple x y).2.val + (if 2 ^ 64 ≤ x / 2 ^ 32 * (y % 2 ^ 32)
        + y / 2 ^ 32 * (x % 2 ^ 32) then 2 ^ 96 else 0) = x * y := by
  have hxy : x * y = (x / 2 ^ 32) * (y / 2 ^ 32) * 2 ^ 64
      + ((x / 2 ^ 32) * (y % 2 ^ 32) + (y / 2 ^ 32) * (x % 2 ^ 32)) * 2 ^ 32
      + (x % 2 ^ 32) * (y % 2 ^ 32) := by
    conv_lhs => rw [← Nat.div_add_mod x (2 ^ 32), ← Nat.div_add_mod y (2 ^ 32)]
    ring
  have hu1 : x / 2 ^ 32 ≤ 2 ^ 32 - 1 := by norm_num at hx ⊢; omega
  have hu2 : y / 2 ^ 32 ≤ 2 ^ 32 - 1 := by norm_num at hy ⊢; omega
  have hl1 : x % 2 ^ 32 ≤ 2 ^ 32 - 1 := by norm_num; omega
  have hl2 : y % 2 ^ 32 ≤ 2 ^ 32 - 1 := by norm_num; omega
  have hA := Nat.mul_le_mul hu1 hu2
  have hB := Nat.mul_le_mul hl1 hl2
  have hP := Nat.mul_le_mul hu1 hl2
  have hQ := Nat.mul_le_mul hu2 hl1
  simp only [long_long_multiple, upper_half x hx, upper_half y hy, lower_half, u64]
  generalize x / 2 ^ 32 * (y / 2 ^ 32) = A at *
  generalize x % 2 ^ 32 * (y % 2 ^ 32) = B at *
  generalize x / 2 ^ 32 * (y % 2 ^ 32) = P at *
  generalize y / 2 ^ 32 * (x % 2 ^ 32) = Q at *
  rw [upper_half _ (Nat.mod_lt _ (by norm_num))]
  rw [bign_add_words _ _ _ _ (Nat.mod_lt _ (by norm_num)) (Nat.mod_lt _ (by norm_num))]
  simp only [BigN.val, Nat.shiftLeft_eq]
  rw [hxy]
  norm_num at hA hB hP hQ ⊢
  split_ifs <;> omega

/-! ## Subtraction, shift and division -/

theorem bign_minus_words (al au bl bu : Nat) (hal : al < 2 ^ 64) (hau : au < 2 ^ 64)
    (hbl : bl < 2 ^ 64) (hbu : bu < 2 ^ 64) :
    (bign_minus ⟨al, au⟩ ⟨bl, bu⟩).2
      = ⟨(2 ^ 64 + al - bl) % 2 ^ 64,
         (2 ^ 64 + 2 ^ 64 + au - bu - if al < bl then 1 else 0) % 2 ^ 64⟩ ∧
    ((bign_minus ⟨al, au⟩ ⟨bl, bu⟩).1 = if au < bu then 1 else 0) := by
  simp only [bign_minus, sub64, u64]
  norm_num at hal hau hbl hbu ⊢
  have hb : (if al < (18446744073709551616 + al - bl) % 18446744073709551616 then 1 else 0)
      = (if al < bl then 1 else 0) := by
    split_ifs <;> omega
  rw [hb]
  constructor
  · split_ifs <;> simp only [BigN.mk.injEq, true_and] <;> omega
  · split_ifs <;> first | rfl | omega

/-- C11: for all 128-bit `a ≥ b`, `bign_minus` stores exactly `a - b`, taking
1 from the upper word exactly when `a.lower < b.lower`, and returns 0. -/
theorem bign_minus_exact (a b : BigN) (ha : a.wf) (hb : b.wf) (hab : b.val ≤ a.val) :
    (bign_minus a b).2.val = a.val - b.val ∧
    (bign_minus a b).2.lower + b.lower
      = a.lower + (if a.lower < b.lower then 2 ^ 64 else 0) ∧
    (bign_minus a b).2.upper + b.upper + (if a.lower < b.lower then 1 else 0) = a.upper ∧
    (bign_minus a b).1 = 0 := by
  obtain ⟨al, au⟩ := a
  obtain ⟨bl, bu⟩ := b
  simp only [BigN.wf] at ha hb
  obtain ⟨h1, h2⟩ := bign_minus_words al au bl bu ha.1 ha.2 hb.1 hb.2
  rw [h1, h2]
  simp only [BigN.val] at hab ⊢
  norm_num at ha hb hab ⊢
  refine ⟨?_, ?_, ?_, ?_⟩ <;> (try split_ifs) <;> omega

/-- C11 at `a = 2^64` and `b = 1`, where the lower words borrow. -/
theorem bign_minus_exact_witness :
    ((⟨0, 1⟩ : BigN).wf ∧ (⟨1, 0⟩ : BigN).wf ∧ (⟨1, 0⟩ : BigN).val ≤ (⟨0, 1⟩ : BigN).val) ∧
    ((bign_minus ⟨0, 1⟩ ⟨1, 0⟩).2.val = (⟨0, 1⟩ : BigN).val - (⟨1, 0⟩ : BigN).val ∧
    (bign_minus ⟨0, 1⟩ ⟨1, 0⟩).2.lower + (⟨1, 0⟩ : BigN).lower
      = (⟨0, 1⟩ : BigN).lower
        + (if (⟨0, 1⟩ : BigN).lower < (⟨1, 0⟩ : BigN).lower then 2 ^ 64 else 0) ∧
    (bign_minus ⟨0, 1⟩ ⟨1, 0⟩).2.upper + (⟨1, 0⟩ : BigN).upper
      + (if (⟨0, 1⟩ : BigN).lower < (⟨1, 0⟩ : BigN).lower then 1 else 0)
      = (⟨0, 1⟩ : BigN).upper ∧
    (bign_minus ⟨0, 1⟩ ⟨1, 0⟩).1 = 0) :=
  ⟨⟨by decide, by decide, by decide⟩,
    bign_minus_exact ⟨0, 1⟩ ⟨1, 0⟩ (by decide) (by decide) (by decide)⟩

/-- C20: for all 128-bit `a` and `b`, `bign_minus` stores `(a - b) mod 2^128`
and returns 1 exactly when `b.upper > a.upper`; so for `a.upper = b.upper` and
`a.lower < b.lower` it returns 0 although `a < b` and the stored value is the
wrapped `2^128 + a - b`. -/
theorem bign_minus_flag (a b : BigN) (ha : a.wf) (hb : b.wf) :
    (bign_minus a b).2.val = (2 ^ 128 + a.val - b.val) % 2 ^ 128 ∧
    ((bign_minus a b).1 = 1 ↔ b.upper > a.upper) ∧
    ((bign_minus a b).1 = 0 ↔ b.upper ≤ a.upper) ∧
    (a.upper = b.upper → a.lower < b.lower →
      (bign_minus a b).1 = 0 ∧ a.val < b.val ∧
      (bign_minus a b).2.val = 2 ^ 128 + a.val - b.val) := by
  obtain ⟨al, au⟩ := a
  obtain ⟨bl, bu⟩ := b
  simp only [BigN.wf] at ha hb
  obtain ⟨h1, h2⟩ := bign_minus_words al au bl bu ha.1 ha.2 hb.1 hb.2
  rw [h1, h2]
  simp only [BigN.val]
  norm_num at ha hb ⊢
  refine ⟨?_, ?_⟩
  · split_ifs <;> omega
  · intro e1 e2
    subst e1
    refine ⟨?_, ?_⟩
    · omega
    · rw [if_pos e2]
      omega

/-- C20 at `a = 2^64 + 1` and `b = 2^64 + 2`, equal upper words. -/
theorem bign_minus_flag_witness :
    ((⟨1, 1⟩ : BigN).wf ∧ (⟨2, 1⟩ : BigN).wf) ∧
    ((bign_minus ⟨1, 1⟩ ⟨2, 1⟩).2.val
      = (2 ^ 128 + (⟨1, 1⟩ : BigN).val - (⟨2, 1⟩ : BigN).val) % 2 ^ 128 ∧
    ((bign_minus ⟨1, 1⟩ ⟨2, 1⟩).1 = 1 ↔ (⟨2, 1⟩ : BigN).upper > (⟨1, 1⟩ : BigN).upper) ∧
    ((bign_minus ⟨1, 1⟩ ⟨2, 1⟩).1 = 0 ↔ (⟨2, 1⟩ : BigN).upper ≤ (⟨1, 1⟩ : BigN).upper) ∧
    ((⟨1, 1⟩ : BigN).upper = (⟨2, 1⟩ : BigN).upper →
      (⟨1, 1⟩ : BigN).lower < (⟨2, 1⟩ : BigN).lower →
      (bign_minus ⟨1, 1⟩ ⟨2, 1⟩).1 = 0 ∧ (⟨1, 1⟩ : BigN).val < (⟨2, 1⟩ : BigN).val ∧
      (bign_minus ⟨1, 1⟩ ⟨2, 1⟩).2.val
        = 2 ^ 128 + (⟨1, 1⟩ : BigN).val - (⟨2, 1⟩ : BigN).val)) :=
  ⟨⟨by decide, by decide⟩, bign_minus_flag ⟨1, 1⟩ ⟨2, 1⟩ (by decide) (by decide)⟩

theorem bign_left_shift_words (lo hi n : Nat) (hlo : lo < 2 ^ 64) (hn : n ≤ 64) :
    (bign_left_shift ⟨lo, hi⟩ n).2
      = ⟨(lo * 2 ^ n) % 2 ^ 64, ((hi * 2 ^ n) % 2 ^ 64 + lo / 2 ^ (64 - n)) % 2 ^ 64⟩ := by
  have h : (bign_left_shift ⟨lo, hi⟩ n).2
      = ⟨u64 (lo <<< n),
         u64 (u64 (hi <<< n) + ((not64 (LL_MAX >>> n) &&& lo) >>> (64 - n)))⟩ := by
    simp only [bign_left_shift]
    split_ifs <;> rfl
  rw [h, shift_carry_bits lo n hlo hn]
  simp only [u64, Nat.shiftLeft_eq]

/-- The arithmetic of a left shift by `n < 64` of two 64-bit words. -/
theorem shift_words_arith (lo hi n : Nat) (hlo : lo < 2 ^ 64) (hhi : hi < 2 ^ 64) (hn : n < 64) :
    (hi * 2 ^ n) % 2 ^ 64 + lo / 2 ^ (64 - n) < 2 ^ 64 ∧
    ((hi * 2 ^ n) % 2 ^ 64 + lo / 2 ^ (64 - n)) * 2 ^ 64 + (lo * 2 ^ n) % 2 ^ 64
      = ((hi * 2 ^ 64 + lo) * 2 ^ n) % 2 ^ 128 ∧
    ((hi * 2 ^ n) % 2 ^ 64 + lo / 2 ^ (64 - n)) % 2 ^ n = lo / 2 ^ (64 - n) := by
  have hPQ : 2 ^ (64 - n) * 2 ^ n = 2 ^ 64 := by
    rw [← Nat.pow_add]
    congr 1
    omega
  have hQpos : 0 < 2 ^ (64 - n) := Nat.pos_pow_of_pos _ (by norm_num)
  have hPpos : 0 < 2 ^ n := Nat.pos_pow_of_pos _ (by norm_num)
  generalize 2 ^ (64 - n) = Q at *
  generalize 2 ^ n = P at *
  have e1 : (hi * P) % 2 ^ 64 = (hi % Q) * P := by
    rw [← hPQ, Nat.mul_mod_mul_right]
  have e2 : (lo * P) % 2 ^ 64 = (lo % Q) * P := by
    rw [← hPQ, Nat.mul_mod_mul_right]
  have hA : hi % Q < Q := Nat.mod_lt _ hQpos
  have hl : lo % Q < Q := Nat.mod_lt _ hQpos
  have hh : lo / Q < P := by
    rw [Nat.div_lt_iff_lt_mul hQpos, Nat.mul_comm, hPQ]
    exact hlo
  have hAP : (hi % Q) * P + P ≤ 2 ^ 64 := by
    have : (hi % Q + 1) * P ≤ Q * P := Nat.mul_le_mul_right _ hA
    rw [hPQ] at this
    linarith
  have hlP : (lo % Q) * P + P ≤ 2 ^ 64 := by
    have : (lo % Q + 1) * P ≤ Q * P := Nat.mul_le_mul_right _ hl
    rw [hPQ] at this
    linarith
  have hhi' : hi * P = (hi / Q) * 2 ^ 64 + (hi % Q) * P := by
    conv_lhs => rw [← Nat.div_add_mod hi Q]
    rw [← hPQ]
    ring
  have hlo' : lo * P = (lo / Q) * 2 ^ 64 + (lo % Q) * P := by
    conv_lhs => rw [← Nat.div_add_mod lo Q]
    rw [← hPQ]
    ring
  have hG : hi / Q < P := by
    rw [Nat.div_lt_iff_lt_mul hQpos, Nat.mul_comm, hPQ]
    exact hhi
  rw [e1, e2]
  have hexp : (hi * 2 ^ 64 + lo) * P = (hi * P) * 2 ^ 64 + lo * P := by ring
  rw [hexp, hhi', hlo']
  refine ⟨by omega, ?_, ?_⟩
  · generalize hi % Q * P = AP at *
    generalize lo % Q * P = LP at *
    generalize hi / Q = G at *
    generalize lo / Q = H at *
    norm_num
    omega
  · rw [Nat.add_comm, Nat.add_mul_mod_self_right]
    exact Nat.mod_eq_of_lt hh

/-- C13: for every 128-bit `a` and every `n` with `0 ≤ n < 64`,
`bign_left_shift` leaves `(a * 2^n) mod 2^128`: the lower word is
`(a.lower * 2^n) mod 2^64`, the top `n` bits of the old lower word are the
bottom `n` bits of the new upper word, and for `n = 0` the value is
unchanged. -/
theorem bign_left_shift_value (a : BigN) (n : Nat) (ha : a.wf) (hn : n < 64) :
    (bign_left_shift a n).2.val = (a.val * 2 ^ n) % 2 ^ 128 ∧
    (bign_left_shift a n).2.lower = (a.lower * 2 ^ n) % 2 ^ 64 ∧
    (bign_left_shift a n).2.upper = (a.upper * 2 ^ n) % 2 ^ 64 + a.lower / 2 ^ (64 - n) ∧
    (bign_left_shift a n).2.upper % 2 ^ n = a.lower / 2 ^ (64 - n) ∧
    (n = 0 → (bign_left_shift a n).2 = a) := by
  obtain ⟨lo, hi⟩ := a
  obtain ⟨h1, h2⟩ := ha
  simp only at h1 h2
  obtain ⟨b1, b2, b3⟩ := shift_words_arith lo hi n h1 h2 hn
  rw [bign_left_shift_words lo hi n h1 (by omega)]
  simp only [BigN.val, BigN.mk.injEq]
  rw [Nat.mod_eq_of_lt b1]
  refine ⟨b2, trivial, rfl, b3, ?_⟩
  intro h0
  subst h0
  norm_num at h1 h2 ⊢
  omega

/-- The two sums `bign_divide` forms in 64 bits stay below `2^64` for a
divisor up to `2^32`, and they give the quotient and the remainder. -/
theorem bign_divide_sums (lo hi d : Nat) (hlo : lo < 2 ^ 64) (hd : 1 ≤ d) (hd' : d ≤ 2 ^ 32) :
    (LL_MAX % d) * (hi % d) + hi % d + lo % d < 2 ^ 64 ∧
    lo / d + (LL_MAX / d) * (hi % d) + ((LL_MAX % d) * (hi % d) + hi % d + lo % d) / d < 2 ^ 64 ∧
    (hi / d * 2 ^ 64
        + (lo / d + (LL_MAX / d) * (hi % d) + ((LL_MAX % d) * (hi % d) + hi % d + lo % d) / d)) * d
      + ((LL_MAX % d) * (hi % d) + hi % d + lo % d) % d = hi * 2 ^ 64 + lo := by
  have hdpos : 0 < d := hd
  have e1 := Nat.div_add_mod hi d
  have e2 := Nat.div_add_mod lo d
  have e3 : d * (LL_MAX / d) + LL_MAX % d + 1 = 2 ^ 64 := by
    have := Nat.div_add_mod LL_MAX d
    have hL : LL_MAX + 1 = 2 ^ 64 := by rfl
    omega
  have hb : hi % d < d := Nat.mod_lt _ hdpos
  have hc : lo % d < d := Nat.mod_lt _ hdpos
  have hm : LL_MAX % d < d := Nat.mod_lt _ hdpos
  generalize hi % d = b at *
  generalize lo % d = c at *
  generalize hi / d = g at *
  generalize lo / d = e at *
  generalize LL_MAX % d = m at *
  generalize LL_MAX / d = M at *
  have e4 := Nat.div_add_mod (m * b + b + c) d
  have hs : (m * b + b + c) % d < d := Nat.mod_lt _ hdpos
  generalize (m * b + b + c) % d = s at *
  generalize (m * b + b + c) / d = t at *
  have hmb : m * b ≤ (2 ^ 32 - 1) * (2 ^ 32 - 1) :=
    Nat.mul_le_mul (by omega) (by omega)
  have key : (e + M * b + t) * d + s = b * 2 ^ 64 + lo := by
    have h1 : (e + M * b + t) * d + s = d * e + b * (d * M) + (d * t + s) := by ring
    have h2 : b * 2 ^ 64 = b * (d * M) + (m * b + b) := by
      rw [← e3]
      ring
    rw [h1, e4, h2, ← e2]
    ring
  have hT : e + M * b + t < 2 ^ 64 := by
    have h1 : (e + M * b + t) * d < 2 ^ 64 * d := by
      have h2 : b * 2 ^ 64 + 2 ^ 64 ≤ 2 ^ 64 * d := by
        have : (b + 1) * 2 ^ 64 ≤ d * 2 ^ 64 := Nat.mul_le_mul_right _ (by omega)
        linarith
      omega
    exact Nat.lt_of_mul_lt_mul_right h1
  refine ⟨?_, hT, ?_⟩
  · norm_num at hmb ⊢
    omega
  · have h1 : (g * 2 ^ 64 + (e + M * b + t)) * d + s
        = (d * g) * 2 ^ 64 + ((e + M * b + t) * d + s) := by ring
    rw [h1, key, ← e1]
    ring


/-- C18: for every 128-bit dividend and every divisor `d` with
`1 ≤ d ≤ 2^32` (10 among them), the two sums `bign_divide` forms in 64 bits do
not wrap, and the quotient `q` and remainder `r` it leaves satisfy
`q * d + r = a` with `0 ≤ r < d`. -/
theorem bign_divide_small (a : BigN) (d : Nat) (ha : a.wf) (hd : 1 ≤ d) (hd' : d ≤ 2 ^ 32) :
    (LL_MAX % d) * (a.upper % d) + a.upper % d + a.lower % d < 2 ^ 64 ∧
    a.lower / d + (LL_MAX / d) * (a.upper % d)
      + ((LL_MAX % d) * (a.upper % d) + a.upper % d + a.lower % d) / d < 2 ^ 64 ∧
    ∃ q r, bign_divide a d = some (q, r) ∧ q.wf ∧ q.val * d + r = a.val ∧ r < d := by
  obtain ⟨lo, hi⟩ := a
  obtain ⟨hlo, hhi⟩ := ha
  simp only at hlo hhi
  obtain ⟨h1, h2, h3⟩ := bign_divide_sums lo hi d hlo hd hd'
  refine ⟨h1, h2, ?_⟩
  have hd0 : d ≠ 0 := by omega
  have hdpos : 0 < d := hd
  by_cases h0 : hi = 0
  · subst h0
    refine ⟨⟨lo / d, 0⟩, lo % d, ?_, ⟨?_, ?_⟩, ?_, Nat.mod_lt _ hdpos⟩
    · simp [bign_divide, hd0]
    · exact lt_of_le_of_lt (Nat.div_le_self _ _) hlo
    · norm_num
    · simp only [BigN.val]
      have := Nat.div_add_mod lo d
      linarith [Nat.mul_comm (lo / d) d]
  · refine ⟨⟨lo / d + (LL_MAX / d) * (hi % d)
        + ((LL_MAX % d) * (hi % d) + hi % d + lo % d) / d, hi / d⟩,
      ((LL_MAX % d) * (hi % d) + hi % d + lo % d) % d, ?_, ⟨h2, ?_⟩, ?_, Nat.mod_lt _ hdpos⟩
    · simp only [bign_divide, hd0, h0, if_false, u64]
      have a1 : (LL_MAX % d) * (hi % d) % 2 ^ 64 = (LL_MAX % d) * (hi % d) :=
        Nat.mod_eq_of_lt (by omega)
      have a2 : ((LL_MAX % d) * (hi % d) + hi % d) % 2 ^ 64 = (LL_MAX % d) * (hi % d) + hi % d :=
        Nat.mod_eq_of_lt (by omega)
      have a3 : ((LL_MAX % d) * (hi % d) + hi % d + lo % d) % 2 ^ 64
          = (LL_MAX % d) * (hi % d) + hi % d + lo % d := Nat.mod_eq_of_lt h1
      have a4 : (LL_MAX / d) * (hi % d) % 2 ^ 64 = (LL_MAX / d) * (hi % d) :=
        Nat.mod_eq_of_lt
          (lt_of_le_of_lt (le_trans (Nat.le_add_left _ _) (Nat.le_add_right _ _)) h2)
      have a5 : (lo / d + (LL_MAX / d) * (hi % d)) % 2 ^ 64 = lo / d + (LL_MAX / d) * (hi % d) :=
        Nat.mod_eq_of_lt (lt_of_le_of_lt (Nat.le_add_right _ _) h2)
      rw [a1, a2, a3, a4, a5, Nat.mod_eq_of_lt h2]
    · exact lt_of_le_of_lt (Nat.div_le_self _ _) hhi
    · simp only [BigN.val]
      exact h3

/-- C18 at the dividend `2^128 - 1` and the divisor 10. -/
theorem bign_divide_small_witness :
    ((⟨2 ^ 64 - 1, 2 ^ 64 - 1⟩ : BigN).wf ∧ 1 ≤ 10 ∧ 10 ≤ 2 ^ 32) ∧
    ((LL_MAX % 10) * ((⟨2 ^ 64 - 1, 2 ^ 64 - 1⟩ : BigN).upper % 10)
      + (⟨2 ^ 64 - 1, 2 ^ 64 - 1⟩ : BigN).upper % 10
      + (⟨2 ^ 64 - 1, 2 ^ 64 - 1⟩ : BigN).lower % 10 < 2 ^ 64 ∧
    (⟨2 ^ 64 - 1, 2 ^ 64 - 1⟩ : BigN).lower / 10
      + (LL_MAX / 10) * ((⟨2 ^ 64 - 1, 2 ^ 64 - 1⟩ : BigN).upper % 10)
      + ((LL_MAX % 10) * ((⟨2 ^ 64 - 1, 2 ^ 64 - 1⟩ : BigN).upper % 10)
        + (⟨2 ^ 64 - 1, 2 ^ 64 - 1⟩ : BigN).upper % 10
        + (⟨2 ^ 64 - 1, 2 ^ 64 - 1⟩ : BigN).lower % 10) / 10 < 2 ^ 64 ∧
    ∃ q r, bign_divide ⟨2 ^ 64 - 1, 2 ^ 64 - 1⟩ 10 = some (q, r) ∧ q.wf ∧
      q.val * 10 + r = (⟨2 ^ 64 - 1, 2 ^ 64 - 1⟩ : BigN).val ∧ r < 10) :=
  ⟨⟨by decide, by decide, by decide⟩,
    bign_divide_small ⟨2 ^ 64 - 1, 2 ^ 64 - 1⟩ 10 (by decide) (by decide) (by decide)⟩

/-! ## Shift flag and the 64-bit product -/

/-- C13 at `a = 3 * 2^64 + 2^63 + 1` and `n = 1`. -/
theorem bign_left_shift_value_witness :
    ((⟨2 ^ 63 + 1, 3⟩ : BigN).wf ∧ 1 < 64) ∧
    ((bign_left_shift ⟨2 ^ 63 + 1, 3⟩ 1).2.val = ((⟨2 ^ 63 + 1, 3⟩ : BigN).val * 2 ^ 1) % 2 ^ 128 ∧
    (bign_left_shift ⟨2 ^ 63 + 1, 3⟩ 1).2.lower
      = ((⟨2 ^ 63 + 1, 3⟩ : BigN).lower * 2 ^ 1) % 2 ^ 64 ∧
    (bign_left_shift ⟨2 ^ 63 + 1, 3⟩ 1).2.upper
      = ((⟨2 ^ 63 + 1, 3⟩ : BigN).upper * 2 ^ 1) % 2 ^ 64
        + (⟨2 ^ 63 + 1, 3⟩ : BigN).lower / 2 ^ (64 - 1) ∧
    (bign_left_shift ⟨2 ^ 63 + 1, 3⟩ 1).2.upper % 2 ^ 1
      = (⟨2 ^ 63 + 1, 3⟩ : BigN).lower / 2 ^ (64 - 1) ∧
    (1 = 0 → (bign_left_shift ⟨2 ^ 63 + 1, 3⟩ 1).2 = ⟨2 ^ 63 + 1, 3⟩)) :=
  ⟨⟨by decide, by decide⟩, bign_left_shift_value ⟨2 ^ 63 + 1, 3⟩ 1 (by decide) (by decide)⟩

/-- C12 (failing inputs): for `a = 2^126 + 1` and `n = 1` `bign_left_shift`
returns 1 although `a * 2` fits in 128 bits, and for `a = 2^127 + 2^64 + 1`
and `n = 1` it returns 0 although bit 127 of `a` is shifted out. -/
theorem bign_left_shift_flag_wrong :
    ((bign_left_shift ⟨1, 2 ^ 62⟩ 1).1 = 1 ∧ (⟨1, 2 ^ 62⟩ : BigN).val * 2 ^ 1 ≤ 2 ^ 128 - 1) ∧
    ((bign_left_shift ⟨1, 2 ^ 63 + 1⟩ 1).1 = 0 ∧
      2 ^ 128 - 1 < (⟨1, 2 ^ 63 + 1⟩ : BigN).val * 2 ^ 1) := by
  decide

/-- C19: for all 64-bit `x` and `y`, with `mid` the sum of the two middle
partial products of their 32-bit halves, `long_long_multiple` stores exactly
`x * y` when `mid < 2^64` and exactly `x * y - 2^96` when `mid ≥ 2^64`; so the
result is exact whenever `x < 2^63` and `y < 2^63`. -/
theorem long_long_multiple_value (x y : Nat) (hx : x < 2 ^ 64) (hy : y < 2 ^ 64) :
    (x / 2 ^ 32 * (y % 2 ^ 32) + y / 2 ^ 32 * (x % 2 ^ 32) < 2 ^ 64 →
      (long_long_multiple x y).2.val = x * y) ∧
    (2 ^ 64 ≤ x / 2 ^ 32 * (y % 2 ^ 32) + y / 2 ^ 32 * (x % 2 ^ 32) →
      2 ^ 96 ≤ x * y ∧ (long_long_multiple x y).2.val = x * y - 2 ^ 96) ∧
    (x < 2 ^ 63 → y < 2 ^ 63 → (long_long_multiple x y).2.val = x * y) := by
  have h := long_long_multiple_words x y hx hy
  have exact : x / 2 ^ 32 * (y % 2 ^ 32) + y / 2 ^ 32 * (x % 2 ^ 32) < 2 ^ 64 →
      (long_long_multiple x y).2.val = x * y := by
    intro hmid
    rw [if_neg (by omega)] at h
    omega
  refine ⟨exact, ?_, ?_⟩
  · intro hmid
    rw [if_pos hmid] at h
    omega
  · intro hx' hy'
    apply exact
    have h1 : x / 2 ^ 32 ≤ 2 ^ 31 - 1 := by norm_num at hx' ⊢; omega
    have h2 : y / 2 ^ 32 ≤ 2 ^ 31 - 1 := by norm_num at hy' ⊢; omega
    have h3 : x % 2 ^ 32 ≤ 2 ^ 32 - 1 := by norm_num; omega
    have h4 : y % 2 ^ 32 ≤ 2 ^ 32 - 1 := by norm_num; omega
    have hP := Nat.mul_le_mul h1 h4
    have hQ := Nat.mul_le_mul h2 h3
    norm_num at hP hQ ⊢
    omega

/-- C19 at `x = y = 2^64 - 1`, where the middle sum reaches `2^64`. -/
theorem long_long_multiple_value_witness :
    (2 ^ 64 - 1 < 2 ^ 64 ∧ 2 ^ 64 - 1 < 2 ^ 64) ∧
    (((2 ^ 64 - 1) / 2 ^ 32 * ((2 ^ 64 - 1) % 2 ^ 32)
        + (2 ^ 64 - 1) / 2 ^ 32 * ((2 ^ 64 - 1) % 2 ^ 32) < 2 ^ 64 →
      (long_long_multiple (2 ^ 64 - 1) (2 ^ 64 - 1)).2.val = (2 ^ 64 - 1) * (2 ^ 64 - 1)) ∧
    (2 ^ 64 ≤ (2 ^ 64 - 1) / 2 ^ 32 * ((2 ^ 64 - 1) % 2 ^ 32)
        + (2 ^ 64 - 1) / 2 ^ 32 * ((2 ^ 64 - 1) % 2 ^ 32) →
      2 ^ 96 ≤ (2 ^ 64 - 1) * (2 ^ 64 - 1) ∧
      (long_long_multiple (2 ^ 64 - 1) (2 ^ 64 - 1)).2.val
        = (2 ^ 64 - 1) * (2 ^ 64 - 1) - 2 ^ 96) ∧
    (2 ^ 64 - 1 < 2 ^ 63 → 2 ^ 64 - 1 < 2 ^ 63 →
      (long_long_multiple (2 ^ 64 - 1) (2 ^ 64 - 1)).2.val = (2 ^ 64 - 1) * (2 ^ 64 - 1))) :=
  ⟨⟨by decide, by decide⟩,
    long_long_multiple_value (2 ^ 64 - 1) (2 ^ 64 - 1) (by decide) (by decide)⟩

/-! ## The loop, iteration by iteration -/

theorem fib_loop_eq_iterate (fuel : Nat) : ∀ (k i : Nat) (f : BigNArray) (j : Nat),
    64 ≤ i + fuel → fib_loop fuel k i f j = fib_iterate fuel k i f j := by
  induction fuel with
  | zero =>
    intro k i f j h
    simp only [fib_loop, fib_iterate]
    rw [if_neg (by omega)]
  | succ fuel ih =>
    intro k i f j h
    simp only [fib_loop, fib_iterate]
    by_cases hi : i < 64
    · simp only [hi, if_true]
      cases hs : fib_step k i f j with
      | none => rfl
      | some p => exact ih k (i + 1) p.1 p.2 (by omega)
    · simp only [hi, if_false]

theorem fib_iterate_done (t k i : Nat) (f : BigNArray) (j : Nat) (hi : 64 ≤ i) :
    fib_iterate t k i f j = some (f, j) := by
  cases t with
  | zero => rfl
  | succ t =>
    simp only [fib_iterate]
    rw [if_neg (by omega)]

theorem fib_iterate_saturate (t : Nat) : ∀ (k i : Nat) (f : BigNArray) (j : Nat),
    64 ≤ i + t → fib_iterate t k i f j = fib_iterate (64 - i) k i f j := by
  induction t with
  | zero =>
    intro k i f j h
    rw [fib_iterate_done _ k i f j (by omega), fib_iterate_done _ k i f j (by omega)]
  | succ t ih =>
    intro k i f j h
    by_cases hi : i < 64
    · have e : 64 - i = (64 - (i + 1)) + 1 := by omega
      rw [e]
      simp only [fib_iterate, hi, if_true]
      cases hs : fib_step k i f j with
      | none => rfl
      | some p => exact ih k (i + 1) p.1 p.2 (by omega)
    · rw [fib_iterate_done _ k i f j (by omega), fib_iterate_done _ k i f j (by omega)]

/-- The state at the exit of the loop of `fib_sequence` is the state after
`64 - clz(k)` iterations. -/
theorem fib_array_eq_after (k : Int) :
    fib_array k = fib_after (64 - clzll (k % 2 ^ 64).toNat) k := by
  have key : ∀ f : BigNArray,
      fib_loop 64 (k % 2 ^ 64).toNat (clzll (k % 2 ^ 64).toNat) f 0
        = fib_iterate (64 - clzll (k % 2 ^ 64).toNat) (k % 2 ^ 64).toNat
            (clzll (k % 2 ^ 64).toNat) f 0 := by
    intro f
    rw [fib_loop_eq_iterate 64 _ _ _ _ (by omega), fib_iterate_saturate 64 _ _ _ _ (by omega)]
  simp only [fib_array, fib_after, key]

theorem toNat_emod_natCast (k : Nat) (hk : k < 2 ^ 64) : ((k : Int) % 2 ^ 64).toNat = k := by
  rw [Int.emod_eq_of_lt (by omega) (by exact_mod_cast hk)]
  simp

set_option synthInstance.maxSize 10000 in
theorem fib_after_small_1 : ∀ k : Nat, k ≤ 63 → 1 ≤ k →
    ∀ t : Nat, t ≤ 64 - clzll k → 1 ≤ t →
    (fib_after t (k : Int)).map (fun p => (p.2, load p.1 p.2, load p.1 (p.2 + 1)))
      = some (k / 2 ^ (64 - clzll k - t),
          some (BigN.ofNat (Nat.fib (k / 2 ^ (64 - clzll k - t)))),
          some (BigN.ofNat (Nat.fib (k / 2 ^ (64 - clzll k - t) + 1)))) := by
  decide!

set_option synthInstance.maxSize 10000 in
theorem fib_after_small_2 : ∀ k : Nat, k ≤ 111 → 64 ≤ k →
    ∀ t : Nat, t ≤ 64 - clzll k → 1 ≤ t →
    (fib_after t (k : Int)).map (fun p => (p.2, load p.1 p.2, load p.1 (p.2 + 1)))
      = some (k / 2 ^ (64 - clzll k - t),
          some (BigN.ofNat (Nat.fib (k / 2 ^ (64 - clzll k - t)))),
          some (BigN.ofNat (Nat.fib (k / 2 ^ (64 - clzll k - t) + 1)))) := by
  decide!

set_option synthInstance.maxSize 10000 in
theorem fib_after_small_3 : ∀ k : Nat, k ≤ 151 → 112 ≤ k →
    ∀ t : Nat, t ≤ 64 - clzll k → 1 ≤ t →
    (fib_after t (k : Int)).map (fun p => (p.2, load p.1 p.2, load p.1 (p.2 + 1)))
      = some (k / 2 ^ (64 - clzll k - t),
          some (BigN.ofNat (Nat.fib (k / 2 ^ (64 - clzll k - t)))),
          some (BigN.ofNat (Nat.fib (k / 2 ^ (64 - clzll k - t) + 1)))) := by
  decide!

set_option synthInstance.maxSize 10000 in
theorem fib_after_small_4 : ∀ k : Nat, k ≤ 185 → 152 ≤ k →
    ∀ t : Nat, t ≤ 64 - clzll k → 1 ≤ t →
    (fib_after t (k : Int)).map (fun p => (p.2, load p.1 p.2, load p.1 (p.2 + 1)))
      = some (k / 2 ^ (64 - clzll k - t),
          some (BigN.ofNat (Nat.fib (k / 2 ^ (64 - clzll k - t)))),
          some (BigN.ofNat (Nat.fib (k / 2 ^ (64 - clzll k - t) + 1)))) := by
  decide!

theorem fib_after_small (k : Nat) (hk : 1 ≤ k) (hk' : k ≤ 185) (t : Nat) (ht : 1 ≤ t)
    (ht' : t ≤ 64 - clzll k) :
    (fib_after t (k : Int)).map (fun p => (p.2, load p.1 p.2, load p.1 (p.2 + 1)))
      = some (k / 2 ^ (64 - clzll k - t),
          some (BigN.ofNat (Nat.fib (k / 2 ^ (64 - clzll k - t)))),
          some (BigN.ofNat (Nat.fib (k / 2 ^ (64 - clzll k - t) + 1)))) := by
  by_cases h1 : k ≤ 63
  · exact fib_after_small_1 k h1 hk t ht' ht
  · by_cases h2 : k ≤ 111
    · exact fib_after_small_2 k h2 (by omega) t ht' ht
    · by_cases h3 : k ≤ 151
      · exact fib_after_small_3 k h3 (by omega) t ht' ht
      · exact fib_after_small_4 k hk' (by omega) t ht' ht

theorem rolling_pair_small : ∀ k : Nat, k ≤ 186 → 1 ≤ k →
    rolling_pair k = some (BigN.ofNat (Nat.fib k)) := by
  decide!

set_option synthInstance.maxSize 10000 in
theorem alias_first_iteration : ∀ k : Nat, k ≤ 186 → 1 ≤ k →
    (fib_after 0 (k : Int)).bind (fun p =>
        (fib_double p.1 p.2).map (fun g => (p.2, load p.1 0, load g 0)))
      = some (0, some ⟨0, 0⟩, some ⟨0, 0⟩) := by
  decide!

set_option synthInstance.maxSize 10000 in
theorem alias_second_iteration : ∀ k : Nat, k ≤ 186 → 2 ≤ k →
    (fib_after 1 (k : Int)).bind (fun p =>
        (fib_double p.1 p.2).map (fun g => (p.2, load p.1 2, load g 2)))
      = some (1, some ⟨1, 0⟩, some ⟨1, 0⟩) := by
  decide!

theorem fib_array_negative (k : Int) (hk : k < 0) : fib_array k = none := by
  by_cases h : k + 2 ≤ 0
  · simp [fib_array, h]
  · have hk1 : k = -1 := by omega
    subst hk1
    decide

theorem fib_sequence_negative (k : Int) (hk : k < 0) (string : List Nat) :
    fib_sequence k string = none := by
  have h0 : ¬ k = 0 := by omega
  simp only [fib_sequence, h0, if_false, fib_number, fib_array_negative k hk]
  cases store_char string 0 0 <;> rfl

/-! ## Claims about the loop of `fib_sequence` -/

/-- C14 (counterexample): for `k = -1` `fib_sequence` does not reject the
request: it sets `string[0]`, declares `f` with `k + 2 = 1` element, stores to
`f[0]`, and then stores to `f[1]`, outside the array; the call has no defined
result. -/
theorem fib_sequence_negative_not_rejected :
    store_char (List.replicate 40 7) 0 0 = some (0 :: List.replicate 39 7) ∧
    store ⟨((-1 : Int) + 2).toNat, []⟩ 0 ⟨0, 0⟩ = some ⟨1, [(0, ⟨0, 0⟩)]⟩ ∧
    store ⟨1, [(0, ⟨0, 0⟩)]⟩ 1 ⟨1, 0⟩ = none ∧
    fib_sequence (-1) (List.replicate 40 7) = none := by
  decide

/-- C14 (as corrected): `fib_sequence` makes no check of its index; for every
negative `k` the stores to `f[0]` and `f[1]` of the array declared with
`k + 2` elements leave the array, so the call has no defined result and no
digit string comes out of it.  A negative position does not come from
`fib_device_lseek`, which keeps the new position in `[0, MAX_LENGTH]`. -/
theorem fib_sequence_negative_undefined (k : Int) (hk : k < 0) (string : List Nat) :
    fib_array k = none ∧ fib_sequence k string = none ∧
    ∀ f_pos offset orig p, fib_device_lseek f_pos offset orig = some p →
      0 ≤ p ∧ p ≤ MAX_LENGTH := by
  refine ⟨fib_array_negative k hk, fib_sequence_negative k hk string, ?_⟩
  intro f_pos offset orig p h
  simp only [fib_device_lseek, MAX_LENGTH, Option.map_eq_some'] at h
  obtain ⟨q, -, h⟩ := h
  simp only [MAX_LENGTH]
  split_ifs at h <;> omega

/-- C14 (as corrected) at `k = -3` and a buffer of forty bytes 7. -/
theorem fib_sequence_negative_undefined_witness :
    ((-3 : Int) < 0) ∧
    (fib_array (-3) = none ∧ fib_sequence (-3) (List.replicate 40 7) = none ∧
    ∀ f_pos offset orig p, fib_device_lseek f_pos offset orig = some p →
      0 ≤ p ∧ p ≤ MAX_LENGTH) :=
  ⟨by decide, fib_sequence_negative_undefined (-3) (by decide) (List.replicate 40 7)⟩

/-- C15: for every `k ≥ 1` with `F(k+1) ≤ 2^128 - 1` and every `t` from 1 to
the bit length `64 - clz(k)` of `k`, after `t` iterations of the loop of
`fib_sequence` the index `j` is the number formed by the top `t` bits of `k`
(so `j ≤ k`), and `f[j]` and `f[j+1]` hold exactly `F(j)` and `F(j+1)`; after
the last iteration `j = k` and the state is the one at the exit of the loop. -/
theorem fib_loop_invariant (k : Nat) (hk : 1 ≤ k) (hfit : Nat.fib (k + 1) ≤ 2 ^ 128 - 1)
    (t : Nat) (ht : 1 ≤ t) (ht' : t ≤ 64 - clzll k) :
    ∃ f j a b, fib_after t (k : Int) = some (f, j) ∧
      j = k / 2 ^ (64 - clzll k - t) ∧ j ≤ k ∧
      load f j = some a ∧ a.wf ∧ a.val = Nat.fib j ∧
      load f (j + 1) = some b ∧ b.wf ∧ b.val = Nat.fib (j + 1) ∧
      (t = 64 - clzll k → j = k ∧ fib_array (k : Int) = some (f, j)) := by
  have hk' : k ≤ 185 := by
    by_contra hc
    have h1 : Nat.fib 187 ≤ Nat.fib (k + 1) := Nat.fib_mono (by omega)
    have h2 := fib_187_gt
    omega
  have h := fib_after_small k hk hk' t ht ht'
  cases hp : fib_after t (k : Int) with
  | none => rw [hp] at h; simp at h
  | some p =>
    obtain ⟨f, j⟩ := p
    rw [hp] at h
    simp only [Option.map_some', Option.some.injEq, Prod.mk.injEq] at h
    obtain ⟨hj, ha, hb⟩ := h
    have hjk : j ≤ k := by rw [hj]; exact Nat.div_le_self _ _
    refine ⟨f, j, BigN.ofNat (Nat.fib j), BigN.ofNat (Nat.fib (j + 1)), rfl, hj, hjk, ?_,
      BigN.wf_ofNat _, BigN.val_ofNat _ (fib_lt_of_le_186 j (by omega)), ?_,
      BigN.wf_ofNat _, BigN.val_ofNat _ (fib_lt_of_le_186 (j + 1) (by omega)), ?_⟩
    · rw [ha, hj]
    · rw [hb, hj]
    · intro ht_eq
      have hjk' : j = k := by
        rw [hj, ht_eq, Nat.sub_self, pow_zero, Nat.div_one]
      refine ⟨hjk', ?_⟩
      rw [fib_array_eq_after, toNat_emod_natCast k (by omega), ← ht_eq, hp]

/-- C15 at `k = 185` (binary 10111001) after `t = 5` iterations, where
`j = 23`. -/
theorem fib_loop_invariant_witness :
    (1 ≤ 185 ∧ Nat.fib (185 + 1) ≤ 2 ^ 128 - 1 ∧ 1 ≤ 5 ∧ 5 ≤ 64 - clzll 185) ∧
    ∃ f j a b, fib_after 5 ((185 : Nat) : Int) = some (f, j) ∧
      j = 185 / 2 ^ (64 - clzll 185 - 5) ∧ j ≤ 185 ∧
      load f j = some a ∧ a.wf ∧ a.val = Nat.fib j ∧
      load f (j + 1) = some b ∧ b.wf ∧ b.val = Nat.fib (j + 1) ∧
      (5 = 64 - clzll 185 → j = 185 ∧ fib_array ((185 : Nat) : Int) = some (f, j)) :=
  ⟨⟨by decide, by decide, by decide, by decide⟩,
    fib_loop_invariant 185 (by decide) (by decide) 5 (by decide) (by decide)⟩

/-- C16 (failing input): for `k = 188` the loop of `fib_sequence` ends with
`j = 188`, an index inside the array, but no store was ever made to `f[188]`
(`bign_multiple` returned before storing), so the read of `f[j]` handed to
`bign2string` is a read of an uninitialised element. -/
theorem fib_sequence_188_uninitialised :
    (fib_array 188).map (fun p => (p.2, decide (p.2 < p.1.size), p.1.writes.lookup p.2))
      = some (188, true, none) ∧
    fib_number 188 = none ∧
    fib_sequence 188 (List.replicate 40 0) = none := by
  decide!

/-- C17: for every `k` with `1 ≤ k ≤ 186` the loop of `fib_sequence` on the
array ends with the same 128-bit value in `f[j]` as the loop on a rolling pair
`(a, b)` built from the same BigN primitives; the store to `f[2j]` that
aliases `f[j]` in the first iteration (`j = 0`) and `f[j+1]` in the second
(`j = 1`) stores the value the element already holds. -/
theorem fib_number_eq_rolling_pair (k : Nat) (hk : 1 ≤ k) (hk' : k ≤ 186) :
    fib_number (k : Int) = rolling_pair k ∧
    (∃ v : BigN, fib_number (k : Int) = some v ∧ v.val = Nat.fib k) ∧
    (fib_after 0 (k : Int)).bind (fun p =>
        (fib_double p.1 p.2).map (fun g => (p.2, load p.1 0, load g 0)))
      = some (0, some ⟨0, 0⟩, some ⟨0, 0⟩) ∧
    (2 ≤ k → (fib_after 1 (k : Int)).bind (fun p =>
        (fib_double p.1 p.2).map (fun g => (p.2, load p.1 2, load g 2)))
      = some (1, some ⟨1, 0⟩, some ⟨1, 0⟩)) := by
  refine ⟨?_, ⟨_, fib_number_small k hk' hk, BigN.val_ofNat _ (fib_lt_of_le_186 k hk')⟩,
    alias_first_iteration k hk' hk, fun h2 => alias_second_iteration k hk' h2⟩
  rw [fib_number_small k hk' hk, rolling_pair_small k hk' hk]

/-- C17 at `k = 186`, the largest index it covers. -/
theorem fib_number_eq_rolling_pair_witness :
    (1 ≤ 186 ∧ 186 ≤ 186) ∧
    (fib_number ((186 : Nat) : Int) = rolling_pair 186 ∧
    (∃ v : BigN, fib_number ((186 : Nat) : Int) = some v ∧ v.val = Nat.fib 186) ∧
    (fib_after 0 ((186 : Nat) : Int)).bind (fun p =>
        (fib_double p.1 p.2).map (fun g => (p.2, load p.1 0, load g 0)))
      = some (0, some ⟨0, 0⟩, some ⟨0, 0⟩) ∧
    (2 ≤ 186 → (fib_after 1 ((186 : Nat) : Int)).bind (fun p =>
        (fib_double p.1 p.2).map (fun g => (p.2, load p.1 2, load g 2)))
      = some (1, some ⟨1, 0⟩, some ⟨1, 0⟩))) :=
  ⟨⟨by decide, by decide⟩, fib_number_eq_rolling_pair 186 (by decide) (by decide)⟩

end Fibdrv
